import Mathlib

/-!
Verification of the shadPS4 buffer-cache excerpt: the `RegionManager`
page-tracking bitsets (`src/video_core/buffer_cache/word_manager.h`), the
streaming memcpy (`src/video_core/buffer_cache/stream_memcpy.cpp`) and the
page-table walk `BufferCache::ForEachBufferInRange`
(`src/video_core/buffer_cache/buffer_cache.h`).

Machine integers (`u64`, `size_t`, `s64`) are modelled as `Nat` with explicit
`% 2 ^ 64` where C++ would wrap, and an explicit signed reinterpretation
`toS64` where the source casts to `s64`.  The four 16-word bitset arrays are
modelled as total functions `Nat → Nat`; all indices the source ever touches
are below `NUM_REGION_WORDS = 16` (proved below) and all stored words stay
below `2 ^ 64`.
-/

namespace ShadPS4

/-- PAGES_PER_WORD from word_manager.h. -/
def PAGES_PER_WORD : Nat := 64

/-- BYTES_PER_PAGE from word_manager.h (4 KiB). -/
def BYTES_PER_PAGE : Nat := 4096

/-- BYTES_PER_WORD from word_manager.h. -/
def BYTES_PER_WORD : Nat := PAGES_PER_WORD * BYTES_PER_PAGE

/-- HIGHER_PAGE_SIZE (1 « 22): the 4 MiB region size. -/
def HIGHER_PAGE_SIZE : Nat := 2 ^ 22

/-- NUM_REGION_WORDS = HIGHER_PAGE_SIZE / BYTES_PER_WORD = 16. -/
def NUM_REGION_WORDS : Nat := HIGHER_PAGE_SIZE / BYTES_PER_WORD

/-- The all-ones 64-bit word `~u64{0}`. -/
def mask64 : Nat := 2 ^ 64 - 1

/-- Reinterpretation of a `u64` value as a signed `s64`
(`static_cast<s64>(x)` in `IterateWords`). -/
def toS64 (x : Nat) : Int :=
  if x % 2 ^ 64 < 2 ^ 63 then ((x % 2 ^ 64 : Nat) : Int)
  else ((x % 2 ^ 64 : Nat) : Int) - 2 ^ 64

/-- `std::max<s64>(i, 0)` followed by the cast back to `size_t`. -/
def clampNat (i : Int) : Nat := (max i 0).toNat

/-- Wrapping `u64` subtraction, used for `dirty_addr - cpu_addr`. -/
def sub64 (a b : Nat) : Nat := (a % 2 ^ 64 + (2 ^ 64 - b % 2 ^ 64)) % 2 ^ 64

/-- Complement of a 64-bit mask (`~mask` on `u64`). -/
def compl64 (m : Nat) : Nat := mask64 ^^^ m

/-- RegionManager::ExtractBits: keep the bits of `word` whose index lies in
`[page_start, min page_end 64)`. -/
def ExtractBits (word page_start page_end : Nat) : Nat :=
  let limit_page_end := 64 - min page_end 64
  let bits := (word >>> page_start) <<< page_start
  ((bits <<< limit_page_end) % 2 ^ 64) >>> limit_page_end

/-- RegionManager::GetWordPage: word index and page-within-word of a byte
address. -/
def GetWordPage (address : Nat) : Nat × Nat :=
  (address / BYTES_PER_WORD, address % BYTES_PER_WORD / BYTES_PER_PAGE)

/-- The `for (word_index = start_word; word_index < end_word; ...)` loop of
RegionManager::IterateWords, returning the `(word_index, mask)` pairs passed
to the callback.  The first argument is the iteration count
`end_word - start_word`. -/
def iterateWordsLoop : Nat → Nat → Nat → Nat → List (Nat × Nat)
  | 0, _, _, _ => []
  | n + 1, word_index, start_page, end_page =>
    (word_index, ExtractBits mask64 start_page end_page) ::
      iterateWordsLoop n (word_index + 1) 0 (end_page - PAGES_PER_WORD)

/-- RegionManager::IterateWords: clip `[offset, offset + size)` to the region
and produce the word/mask pairs handed to the callback, in order. -/
def iterateWords (offset size : Nat) : List (Nat × Nat) :=
  let start := clampNat (toS64 offset)
  let stop := clampNat (toS64 ((offset + size) % 2 ^ 64))
  if HIGHER_PAGE_SIZE ≤ start ∨ stop ≤ start then []
  else
    let sw := (GetWordPage start).1
    let sp := (GetWordPage start).2
    let ew0 := (GetWordPage (stop + BYTES_PER_PAGE - 1)).1
    let ep0 := (GetWordPage (stop + BYTES_PER_PAGE - 1)).2
    let start_word := min sw NUM_REGION_WORDS
    let end_word1 := min ew0 NUM_REGION_WORDS
    let diff := end_word1 - start_word
    let end_word := min (end_word1 + (ep0 + PAGES_PER_WORD - 1) / PAGES_PER_WORD)
      NUM_REGION_WORDS
    let end_page := ep0 + diff * PAGES_PER_WORD
    iterateWordsLoop (end_word - start_word) start_word sp end_page

/-- `std::countr_zero` on a 64-bit value, by fuel over the bit width. -/
def ctzAux : Nat → Nat → Nat
  | 0, _ => 0
  | fuel + 1, m => if m % 2 = 1 then 0 else 1 + ctzAux fuel (m / 2)

/-- Trailing-zero count of a `u64` (64 for zero). -/
def countrZero (m : Nat) : Nat := ctzAux 64 m

/-- `std::countr_one` on a 64-bit value, by fuel over the bit width. -/
def ctoAux : Nat → Nat → Nat
  | 0, _ => 0
  | fuel + 1, m => if m % 2 = 1 then 1 + ctoAux fuel (m / 2) else 0

/-- Trailing-one count of a `u64` (64 for all-ones). -/
def countrOne (m : Nat) : Nat := ctoAux 64 m

/-- The `while (mask != 0)` loop of RegionManager::IteratePages.  Each
iteration consumes at least one bit, so fuel 64 is enough for any `u64`
mask (proved below). -/
def iteratePagesAux : Nat → Nat → Nat → List (Nat × Nat)
  | 0, _, _ => []
  | fuel + 1, mask, offset =>
    if mask = 0 then []
    else
      let empty_bits := countrZero mask
      let offset2 := offset + empty_bits
      let mask2 := mask >>> empty_bits
      let continuous_bits := countrOne mask2
      (offset2, continuous_bits) ::
        iteratePagesAux fuel
          (if continuous_bits < PAGES_PER_WORD then mask2 >>> continuous_bits else 0)
          (offset2 + continuous_bits)

/-- RegionManager::IteratePages: the `(offset, size)` page runs of a word
mask, in ascending order. -/
def IteratePages (mask : Nat) : List (Nat × Nat) := iteratePagesAux 64 mask 0

/-- The `Type` enum of word_manager.h (CPU / GPU side). -/
inductive Side where
  | CPU : Side
  | GPU : Side
deriving DecidableEq

/-- The RegionManager state: base address plus the four bitset arrays
(`cpu`, `gpu`, `write`, `read`), each a map from word index to a 64-bit
word.  `write`/`read` hold the pages that are currently UNprotected, as in
the source (`access_bits` are "bits of pages that are unprotected"). -/
structure RegionManager where
  cpu_addr : Nat
  cpu : Nat → Nat
  gpu : Nat → Nat
  write : Nat → Nat
  read : Nat → Nat

/-- Point update of a word array. -/
def upd (f : Nat → Nat) (i v : Nat) : Nat → Nat :=
  fun j => if j = i then v else f j

/-- The RegionManager constructor: every page CPU-modified, no page
GPU-modified, every page write- and read-unprotected. -/
def freshRegion (cpu_addr : Nat) : RegionManager :=
  { cpu_addr := cpu_addr
    cpu := fun _ => mask64
    gpu := fun _ => 0
    write := fun _ => mask64
    read := fun _ => mask64 }

/-- RegionManager::Span: select the state words of a side. -/
def Span (t : Side) (rm : RegionManager) : Nat → Nat :=
  match t with
  | Side.CPU => rm.cpu
  | Side.GPU => rm.gpu

/-- One `tracker->UpdatePageWatchers<delta, is_read>(addr, size)` call. -/
structure Notif where
  addr : Nat
  size : Nat
  delta : Int
  is_read : Bool
deriving DecidableEq

/-- RegionManager::UpdateProtection: the tracker notifications emitted for
one word, one per run of `changed_bits`. -/
def UpdateProtection (add_to_tracker is_read : Bool)
    (cpu_addr word_index access_bits mask : Nat) : List Notif :=
  let delta : Int := if add_to_tracker then 1 else -1
  let changed_bits := (if add_to_tracker then access_bits else compl64 access_bits) &&& mask
  let addr := cpu_addr + word_index * BYTES_PER_WORD
  (IteratePages changed_bits).map fun r =>
    { addr := addr + r.1 * BYTES_PER_PAGE
      size := r.2 * BYTES_PER_PAGE
      delta := delta
      is_read := is_read }

/-- The body of the `IterateWords` callback in
RegionManager::ChangeRegionState, acting on one `(word_index, mask)` pair. -/
def ChangeRegionStateStep (t : Side) (is_dirty : Bool)
    (acc : RegionManager × List Notif) (im : Nat × Nat) : RegionManager × List Notif :=
  let st := acc.1
  let i := im.1
  let m := im.2
  match t with
  | Side.CPU =>
    let ns := acc.2 ++ UpdateProtection (!is_dirty) false st.cpu_addr i (st.write i) m
    if is_dirty then
      ({ st with cpu := upd st.cpu i (st.cpu i ||| m)
                 write := upd st.write i (st.write i ||| m) }, ns)
    else
      ({ st with cpu := upd st.cpu i (st.cpu i &&& compl64 m)
                 write := upd st.write i (st.write i &&& compl64 m) }, ns)
  | Side.GPU =>
    let ns := acc.2 ++ UpdateProtection true false st.cpu_addr i (st.write i) m
                    ++ UpdateProtection is_dirty true st.cpu_addr i (st.read i) m
    let st2 := { st with write := upd st.write i (st.write i &&& compl64 m) }
    if is_dirty then
      ({ st2 with gpu := upd st2.gpu i (st2.gpu i ||| m)
                  read := upd st2.read i (st2.read i &&& compl64 m) }, ns)
    else
      ({ st2 with gpu := upd st2.gpu i (st2.gpu i &&& compl64 m)
                  read := upd st2.read i (st2.read i ||| m) }, ns)

/-- RegionManager::ChangeRegionState<type, is_dirty>(dirty_addr, size):
the final state together with the `UpdatePageWatchers` calls emitted, in
order. -/
def ChangeRegionState (t : Side) (is_dirty : Bool) (rm : RegionManager)
    (dirty_addr size : Nat) : RegionManager × List Notif :=
  (iterateWords (sub64 dirty_addr rm.cpu_addr) size).foldl
    (ChangeRegionStateStep t is_dirty) (rm, [])

/-- Accumulator of the ForEachModifiedRange loop: region state, the pending
run (`pending`, `pending_offset`, `pending_pointer`), callbacks issued so
far and tracker notifications issued so far. -/
structure FemrAcc where
  st : RegionManager
  pending : Bool
  pending_offset : Nat
  pending_pointer : Nat
  calls : List (Nat × Nat)
  notifs : List Notif

/-- The `IteratePages` callback of ForEachModifiedRange: merge one page run
into the pending run or release the pending run as a callback. -/
def femrPageStep (cpu_addr base_offset : Nat) (acc : FemrAcc) (r : Nat × Nat) : FemrAcc :=
  let o := base_offset + r.1
  if acc.pending = false then
    { acc with pending := true, pending_offset := o, pending_pointer := o + r.2 }
  else if acc.pending_pointer = o then
    { acc with pending_pointer := o + r.2 }
  else
    { acc with
      calls := acc.calls ++
        [(cpu_addr + acc.pending_offset * BYTES_PER_PAGE,
          (acc.pending_pointer - acc.pending_offset) * BYTES_PER_PAGE)]
      pending_offset := o
      pending_pointer := o + r.2 }

/-- The state update the `clear` flag of ForEachModifiedRange performs on
one word: re-protect and clear CPU-modified pages, or un-read-protect and
clear GPU-modified pages. -/
def femrStClear (t : Side) (clear : Bool) (st : RegionManager) (im : Nat × Nat) :
    RegionManager :=
  if clear then
    match t with
    | Side.CPU =>
      { st with
        write := upd st.write im.1 (st.write im.1 &&& compl64 im.2)
        cpu := upd st.cpu im.1 (st.cpu im.1 &&& compl64 im.2) }
    | Side.GPU =>
      { st with
        read := upd st.read im.1 (st.read im.1 ||| im.2)
        gpu := upd st.gpu im.1 (st.gpu im.1 &&& compl64 im.2) }
  else st

/-- The tracker notifications the `clear` flag of ForEachModifiedRange emits
for one word, from the state before the word is cleared. -/
def femrClearNotifs (t : Side) (clear : Bool) (st : RegionManager) (im : Nat × Nat) :
    List Notif :=
  if clear then
    match t with
    | Side.CPU => UpdateProtection true false st.cpu_addr im.1 (st.write im.1) im.2
    | Side.GPU => UpdateProtection false true st.cpu_addr im.1 (st.read im.1) im.2
  else []

/-- The `IterateWords` callback of ForEachModifiedRange: capture the
modified word, optionally clear it and update the protection bitsets, then
feed its page runs to the merger. -/
def femrWordStep (t : Side) (clear : Bool) (acc : FemrAcc) (im : Nat × Nat) : FemrAcc :=
  let word := Span t acc.st im.1 &&& im.2
  let acc2 := { acc with
                st := femrStClear t clear acc.st im
                notifs := acc.notifs ++ femrClearNotifs t clear acc.st im }
  (IteratePages word).foldl (femrPageStep acc.st.cpu_addr (im.1 * PAGES_PER_WORD)) acc2

/-- Result of ForEachModifiedRange: final state, the `func(start, size)`
callbacks in order, and the tracker notifications in order. -/
structure FemrOut where
  st : RegionManager
  calls : List (Nat × Nat)
  notifs : List Notif

/-- RegionManager::ForEachModifiedRange<type, clear>(query_cpu_range, size,
func). -/
def ForEachModifiedRange (t : Side) (clear : Bool) (rm : RegionManager)
    (query_cpu_range size : Nat) : FemrOut :=
  let acc0 : FemrAcc := ⟨rm, false, 0, 0, [], []⟩
  let acc := (iterateWords (sub64 query_cpu_range rm.cpu_addr) size).foldl
    (femrWordStep t clear) acc0
  { st := acc.st
    calls := acc.calls ++
      (if acc.pending then
        [(acc.st.cpu_addr + acc.pending_offset * BYTES_PER_PAGE,
          (acc.pending_pointer - acc.pending_offset) * BYTES_PER_PAGE)]
       else [])
    notifs := acc.notifs }

/-- RegionManager::IsRegionModified<type>(offset, size): true when some page
of the clipped range has the side bit set. -/
def IsRegionModified (t : Side) (rm : RegionManager) (offset size : Nat) : Bool :=
  (iterateWords offset size).any fun im => Span t rm im.1 &&& im.2 ≠ 0

/-! ### stream_memcpy.cpp

Memory is a total function from byte address to byte value; addresses are
`Nat` (host pointers do not wrap in any defined execution). -/

/-- Semantics of `memcpy(d, s, n)` on non-overlapping ranges: the bytes of
`[d, d + n)` become the bytes of `[s, s + n)`, everything else is kept. -/
def memcpyB (mem : Nat → Nat) (d s n : Nat) : Nat → Nat :=
  fun a => if d ≤ a ∧ a < d + n then mem (s + (a - d)) else mem a

/-- The `while (len >= 16)` streaming loop of util_streaming_load_memcpy
followed by the tail `memcpy`; each `_mm_stream_load_si128` +
`_mm_store_si128` pair moves 16 bytes.  Fuel `len` bounds the iteration
count. -/
def simdGo : Nat → (Nat → Nat) → Nat → Nat → Nat → (Nat → Nat)
  | 0, mem, d, s, len =>
    if 16 ≤ len then mem else if len ≠ 0 then memcpyB mem d s len else mem
  | fuel + 1, mem, d, s, len =>
    if 16 ≤ len then simdGo fuel (memcpyB mem d s 16) (d + 16) (s + 16) (len - 16)
    else if len ≠ 0 then memcpyB mem d s len else mem

/-- util_streaming_load_memcpy(dst, src, len): fall back to `memcpy` when
`dst` and `src` are not co-aligned mod 16, otherwise copy the misaligned
head, then stream 16-byte blocks, then copy the tail. -/
def util_streaming_load_memcpy (mem : Nat → Nat) (dst src len : Nat) : Nat → Nat :=
  if dst % 16 ≠ src % 16 then memcpyB mem dst src len
  else if dst % 16 ≠ 0 then
    let bytes_before_alignment_boundary := 16 - dst % 16
    let head := min bytes_before_alignment_boundary len
    let mem2 := memcpyB mem dst src head
    simdGo (len - head) mem2 (dst + bytes_before_alignment_boundary)
      (src + bytes_before_alignment_boundary) (len - head)
  else simdGo len mem dst src len

/-! ### BufferCache::ForEachBufferInRange -/

/-- The guest range of a cached buffer (`Buffer::CpuAddr`,
`Buffer::SizeBytes`). -/
structure CachedBuffer where
  cpu_addr : Nat
  size_bytes : Nat
deriving DecidableEq

/-- Common::DivCeil. -/
def DivCeil (a b : Nat) : Nat := (a + b - 1) / b

/-- CACHING_PAGESIZE of buffer_cache.h. -/
def CACHING_PAGESIZE : Nat := 4096

/-- The page-cursor loop of BufferCache::ForEachBufferInRange.  `pt` is the
page table (0 = null id), `bufs` resolves a buffer id.  Returns `none` when
the fuel runs out, which never happens for a well-formed page table
(proved below). -/
def febLoop (pt : Nat → Nat) (bufs : Nat → CachedBuffer) (page_end : Nat) :
    Nat → Nat → Option (List (Nat × CachedBuffer))
  | 0, page => if page < page_end then none else some []
  | fuel + 1, page =>
    if page < page_end then
      let buffer_id := pt page
      if buffer_id = 0 then febLoop pt bufs page_end fuel (page + 1)
      else
        let buffer := bufs buffer_id
        let end_addr := buffer.cpu_addr + buffer.size_bytes
        (febLoop pt bufs page_end fuel (DivCeil end_addr CACHING_PAGESIZE)).map
          (fun l => (buffer_id, buffer) :: l)
    else some []

/-- BufferCache::ForEachBufferInRange(device_addr, size, func): the
`(buffer_id, buffer)` pairs passed to the callback, in order. -/
def ForEachBufferInRange (pt : Nat → Nat) (bufs : Nat → CachedBuffer)
    (device_addr size : Nat) : Option (List (Nat × CachedBuffer)) :=
  let page_end := DivCeil (device_addr + size) CACHING_PAGESIZE
  febLoop pt bufs page_end page_end (device_addr / CACHING_PAGESIZE)

/-! ### Reference definitions (the spec side)

These are written from the spec's words, to be compared with the embedded
code: maximal contiguous run grouping of an ascending page list, the
clipped page range of a query, and the modified pages of a region. -/

/-- The bits of a word whose index lies in `[a, b)`, as a number. -/
def bitsIn (a b : Nat) : Nat := 2 ^ b - 2 ^ a

/-- Group an ascending list of pages into maximal contiguous runs: the
accumulator holds the open run as `(start, past-the-end)`. -/
def groupFold : Option (Nat × Nat) → List Nat → List (Nat × Nat) × Option (Nat × Nat)
  | p, [] => ([], p)
  | none, x :: xs => groupFold (some (x, x + 1)) xs
  | some (po, pp), x :: xs =>
    if pp = x then groupFold (some (po, x + 1)) xs
    else
      let rest := groupFold (some (x, x + 1)) xs
      ((po, pp - po) :: rest.1, rest.2)

/-- Turn a final pending `(start, past-the-end)` pair into a released
`(start, length)` run. -/
def pendList : Option (Nat × Nat) → List (Nat × Nat)
  | none => []
  | some p => [(p.1, p.2 - p.1)]

/-- Maximal contiguous runs `(start, length)` of an ascending page list. -/
def PageRuns (l : List Nat) : List (Nat × Nat) :=
  (groupFold none l).1 ++ pendList (groupFold none l).2

/-- Merge a list of `(start, length)` runs with the pending-run automaton of
ForEachModifiedRange: a run starting exactly at the pending pointer extends
the pending run, anything else releases it. -/
def mergeFold : Option (Nat × Nat) → List (Nat × Nat) → List (Nat × Nat) × Option (Nat × Nat)
  | p, [] => ([], p)
  | none, r :: rs => mergeFold (some (r.1, r.1 + r.2)) rs
  | some (po, pp), r :: rs =>
    if pp = r.1 then mergeFold (some (po, r.1 + r.2)) rs
    else
      let rest := mergeFold (some (r.1, r.1 + r.2)) rs
      ((po, pp - po) :: rest.1, rest.2)

/-- The runs a run list merges to: emitted runs plus the released pending
run. -/
def mergeRuns (l : List (Nat × Nat)) : List (Nat × Nat) :=
  (mergeFold none l).1 ++ pendList (mergeFold none l).2

/-- The pages covered by a list of `(start, length)` runs, in order. -/
def pageSeq : List (Nat × Nat) → List Nat
  | [] => []
  | r :: rs => List.range' r.1 r.2 ++ pageSeq rs

/-- The pending-run state of a ForEachModifiedRange accumulator as an
optional `(start, past-the-end)` pair. -/
def pendAcc (acc : FemrAcc) : Option (Nat × Nat) :=
  if acc.pending then some (acc.pending_offset, acc.pending_pointer) else none

/-- The page runs (in region-global page coordinates) that
ForEachModifiedRange feeds to its run merger, per word. -/
def flatRuns (t : Side) (rm : RegionManager) : List (Nat × Nat) → List (Nat × Nat)
  | [] => []
  | im :: l =>
    (IteratePages (Span t rm im.1 &&& im.2)).map
      (fun r => (im.1 * PAGES_PER_WORD + r.1, r.2)) ++ flatRuns t rm l

/-- The notifications ForEachModifiedRange emits, per word, all from the
pre-call state. -/
def femrNotifs (t : Side) (clear : Bool) (rm : RegionManager) :
    List (Nat × Nat) → List Notif
  | [] => []
  | im :: l => femrClearNotifs t clear rm im ++ femrNotifs t clear rm l

/-- The page range `[ps, pe)` a query over `[offset, offset + size)` is
clipped to: empty queries give `(0, 0)`, the start is clamped into the
region and the end into its 1024 pages. -/
def clippedRange (offset size : Nat) : Nat × Nat :=
  let start := clampNat (toS64 offset)
  let stop := clampNat (toS64 ((offset + size) % 2 ^ 64))
  if HIGHER_PAGE_SIZE ≤ start ∨ stop ≤ start then (0, 0)
  else (start / BYTES_PER_PAGE, min ((stop + BYTES_PER_PAGE - 1) / BYTES_PER_PAGE) 1024)

/-- Page `p` of the region has the modified bit of side `t` set. -/
def pageModified (t : Side) (rm : RegionManager) (p : Nat) : Bool :=
  (Span t rm (p / PAGES_PER_WORD)).testBit (p % PAGES_PER_WORD)

/-- The pages of the clipped query range whose side bit is set, ascending. -/
def ModifiedPages (t : Side) (rm : RegionManager) (offset size : Nat) : List Nat :=
  let r := clippedRange offset size
  (List.range' r.1 (r.2 - r.1)).filter (pageModified t rm)

/-- The canonical form of the `iterateWords` output: one entry per word of
`[ps, pe)`, whose mask selects the pages of that word inside `[ps, pe)`. -/
def canonWords (ps pe : Nat) : List (Nat × Nat) :=
  (List.range ((pe + 63) / 64 - ps / 64)).map fun k =>
    (ps / 64 + k,
     bitsIn (if k = 0 then ps % 64 else 0) (min (pe - (ps / 64 + k) * 64) 64))

/-- The changed bits a single `UpdateProtection` call acts on. -/
def changedWord (add_to_tracker : Bool) (access_bits mask : Nat) : Nat :=
  (if add_to_tracker then access_bits else compl64 access_bits) &&& mask

/-- Reference form of one `UpdateProtection` call: one notification per
maximal contiguous run of changed pages of the word. -/
def NotifsOfWord (add_to_tracker is_read : Bool)
    (cpu_addr word_index access_bits mask : Nat) : List Notif :=
  (PageRuns ((List.range 64).filter
      fun b => (changedWord add_to_tracker access_bits mask).testBit b)).map fun r =>
    { addr := cpu_addr + word_index * BYTES_PER_WORD + r.1 * BYTES_PER_PAGE
      size := r.2 * BYTES_PER_PAGE
      delta := if add_to_tracker then 1 else -1
      is_read := is_read }

/-- Reference form of the notifications ChangeRegionState emits for one
`(word_index, mask)` pair, from the pre-call state. -/
def ChangeNotifsOfWord (t : Side) (is_dirty : Bool) (rm : RegionManager)
    (im : Nat × Nat) : List Notif :=
  match t with
  | Side.CPU => NotifsOfWord (!is_dirty) false rm.cpu_addr im.1 (rm.write im.1) im.2
  | Side.GPU =>
    NotifsOfWord true false rm.cpu_addr im.1 (rm.write im.1) im.2 ++
      NotifsOfWord is_dirty true rm.cpu_addr im.1 (rm.read im.1) im.2

/-- Flattened reference notifications over a word/mask list. -/
def ChangeNotifs (t : Side) (is_dirty : Bool) (rm : RegionManager) :
    List (Nat × Nat) → List Notif
  | [] => []
  | im :: l => ChangeNotifsOfWord t is_dirty rm im ++ ChangeNotifs t is_dirty rm l

/-- The union of the masks a word/mask list carries for one word index. -/
def orMasks (i : Nat) : List (Nat × Nat) → Nat
  | [] => 0
  | im :: l => (if im.1 = i then im.2 else 0) ||| orMasks i l

/-- Example region for the spec's concrete scenario: CPU-modified pages
{2,3,4,7,8} of word 0 (mask 412 = 0b110011100), nothing else. -/
def exampleRegion : RegionManager :=
  { cpu_addr := 0
    cpu := fun i => if i = 0 then 412 else 0
    gpu := fun _ => 0
    write := fun _ => 0
    read := fun _ => 0 }

/-- States of a RegionManager reachable from a freshly constructed region by
ChangeRegionState and ForEachModifiedRange calls. -/
inductive Reachable : RegionManager → Prop where
  | fresh (cpu_addr : Nat) : Reachable (freshRegion cpu_addr)
  | change (t : Side) (is_dirty : Bool) (dirty_addr size : Nat) {rm : RegionManager} :
      Reachable rm → Reachable (ChangeRegionState t is_dirty rm dirty_addr size).1
  | femr (t : Side) (clear : Bool) (query size : Nat) {rm : RegionManager} :
      Reachable rm → Reachable (ForEachModifiedRange t clear rm query size).st

/-! ## Basic bit lemmas -/

theorem testBit_mask64 (b : Nat) : mask64.testBit b = decide (b < 64) := by
  rw [show mask64 = 2 ^ 64 - 1 from rfl, Nat.testBit_two_pow_sub_one]

theorem mask64_lt : mask64 < 2 ^ 64 := by
  simp [mask64]

theorem testBit_bitsIn (a b j : Nat) :
    (bitsIn a b).testBit j = (decide (a ≤ j) && decide (j < b)) := by
  rcases Nat.le_total a b with hab | hab
  · have hb : a + (b - a) = b := by omega
    have h : bitsIn a b = 2 ^ a * (2 ^ (b - a) - 1) := by
      rw [bitsIn, Nat.mul_sub, Nat.mul_one, ← Nat.pow_add, hb]
    rw [h, Nat.testBit_mul_pow_two, Nat.testBit_two_pow_sub_one]
    by_cases h1 : a ≤ j <;> by_cases h2 : j < b <;> simp [h1, h2] <;> omega
  · have h : bitsIn a b = 0 := by
      have : 2 ^ b ≤ 2 ^ a := Nat.pow_le_pow_right (by omega) hab
      simp [bitsIn]
      omega
    rw [h]
    by_cases h1 : a ≤ j <;> by_cases h2 : j < b <;> simp [h1, h2]
    omega

theorem bitsIn_lt (a b : Nat) (hb : b ≤ 64) : bitsIn a b < 2 ^ 64 := by
  have h1 : 2 ^ b ≤ 2 ^ 64 := Nat.pow_le_pow_right (by omega) hb
  have h2 : 0 < 2 ^ a := Nat.pos_pow_of_pos a (by omega)
  have h3 : 0 < 2 ^ 64 := by positivity
  simp only [bitsIn]
  omega

theorem testBit_compl64 (m b : Nat) :
    (compl64 m).testBit b = (decide (b < 64) != m.testBit b) := by
  simp [compl64, Nat.testBit_xor, testBit_mask64]

theorem land_self_of_le {x m : Nat} (h : ∀ b, m.testBit b = true → x.testBit b = true) :
    x &&& m = m := by
  apply Nat.eq_of_testBit_eq
  intro j
  rw [Nat.testBit_and]
  cases hj : m.testBit j
  · simp
  · simp [h j hj]

theorem land_compl64_land (x m : Nat) (hm : m < 2 ^ 64) :
    (x &&& compl64 m) &&& m = 0 := by
  apply Nat.eq_of_testBit_eq
  intro j
  simp only [Nat.testBit_and, testBit_compl64, Nat.zero_testBit]
  by_cases hj : j < 64
  · cases h : m.testBit j <;> simp [h, hj]
  · have : m.testBit j = false := Nat.testBit_lt_two_pow (by
      calc m < 2 ^ 64 := hm
        _ ≤ 2 ^ j := Nat.pow_le_pow_right (by omega) (by omega))
    simp [this]

/-! ## ExtractBits and the canonical form of iterateWords -/

theorem ExtractBits_mask64 (a b : Nat) (ha : a < 64) :
    ExtractBits mask64 a b = bitsIn a (min b 64) := by
  apply Nat.eq_of_testBit_eq
  intro j
  simp only [ExtractBits, Nat.testBit_shiftRight, Nat.testBit_mod_two_pow,
    Nat.testBit_shiftLeft, testBit_mask64, testBit_bitsIn]
  by_cases h1 : a ≤ j <;> by_cases h2 : j < min b 64 <;>
    simp [h1, h2] <;> intros <;> omega

theorem ExtractBits_lt (a b : Nat) (ha : a < 64) :
    ExtractBits mask64 a b < 2 ^ 64 := by
  rw [ExtractBits_mask64 a b ha]
  exact bitsIn_lt _ _ (by omega)

theorem iterateWordsLoop_eq_map (n : Nat) : ∀ w sp ep,
    iterateWordsLoop n w sp ep =
      (List.range n).map fun k =>
        (w + k, ExtractBits mask64 (if k = 0 then sp else 0) (ep - 64 * k)) := by
  induction n with
  | zero => intro w sp ep; rfl
  | succ n ih =>
    intro w sp ep
    rw [List.range_succ_eq_map, List.map_cons, List.map_map]
    show (w, ExtractBits mask64 sp ep) ::
        iterateWordsLoop n (w + 1) 0 (ep - PAGES_PER_WORD) = _
    rw [ih]
    congr 1
    apply List.map_congr_left
    intro a _
    simp only [Function.comp_apply, Nat.succ_eq_add_one, Prod.mk.injEq]
    refine ⟨by omega, ?_⟩
    have h2 : ep - PAGES_PER_WORD - 64 * a = ep - 64 * (a + 1) := by
      show ep - 64 - 64 * a = _
      omega
    rw [h2]
    simp

theorem iterateWords_eq_canon (offset size : Nat) :
    iterateWords offset size =
      canonWords (clippedRange offset size).1 (clippedRange offset size).2 := by
  unfold iterateWords clippedRange
  by_cases h : HIGHER_PAGE_SIZE ≤ clampNat (toS64 offset) ∨
      clampNat (toS64 ((offset + size) % 2 ^ 64)) ≤ clampNat (toS64 offset)
  · simp only [h, if_true]
    rfl
  · simp only [h, if_false]
    set start := clampNat (toS64 offset) with hstart
    set stop := clampNat (toS64 ((offset + size) % 2 ^ 64)) with hstop
    push_neg at h
    obtain ⟨hlt, hgt⟩ := h
    rw [iterateWordsLoop_eq_map]
    -- abbreviations for the source-side quantities
    have hBW : BYTES_PER_WORD = 262144 := rfl
    have hBP : BYTES_PER_PAGE = 4096 := rfl
    have hHP : HIGHER_PAGE_SIZE = 4194304 := rfl
    have hNW : NUM_REGION_WORDS = 16 := rfl
    have hPW : PAGES_PER_WORD = 64 := rfl
    simp only [GetWordPage, hBW, hBP, hNW, hPW, canonWords]
    have h4095 : stop + 4096 - 1 = stop + 4095 := by omega
    simp only [h4095]
    -- identify word counts
    have hstart4 : start < 4194304 := by omega
    have hcount :
        min (min ((stop + 4095) / 262144) 16 +
            ((stop + 4095) % 262144 / 4096 + 64 - 1) / 64) 16 -
          min (start / 262144) 16 =
        ((min ((stop + 4095) / 4096) 1024) + 63) / 64 - start / 4096 / 64 := by
      omega
    rw [hcount]
    apply List.map_congr_left
    intro k hk
    rw [List.mem_range] at hk
    simp only [Prod.mk.injEq]
    refine ⟨by omega, ?_⟩
    · have harg :
          (stop + 4095) % 262144 / 4096 +
              (min ((stop + 4095) / 262144) 16 - min (start / 262144) 16) * 64 - 64 * k =
            min ((stop + 4095) / 4096) 1024 - (start / 4096 / 64 + k) * 64 ∨
          ((stop + 4095) % 262144 / 4096 +
              (min ((stop + 4095) / 262144) 16 - min (start / 262144) 16) * 64 - 64 * k ≥ 64 ∧
            min ((stop + 4095) / 4096) 1024 - (start / 4096 / 64 + k) * 64 ≥ 64) := by
        omega
      have hsp : (if k = 0 then start % 262144 / 4096 else 0) =
          (if k = 0 then start / 4096 % 64 else 0) := by
        by_cases hk0 : k = 0 <;> simp only [hk0, if_true, if_false] <;> omega
      rw [hsp]
      have hsplt : (if k = 0 then start / 4096 % 64 else 0) < 64 := by
        by_cases hk0 : k = 0 <;> simp [hk0] <;> omega
      rw [ExtractBits_mask64 _ _ hsplt]
      rcases harg with harg | ⟨h1, h2⟩
      · rw [harg]
      · rw [Nat.min_eq_right (by omega), Nat.min_eq_right (by omega)]

/-! ## Trailing zero/one counts -/

theorem ctzAux_le : ∀ fuel m, ctzAux fuel m ≤ fuel := by
  intro fuel
  induction fuel with
  | zero => intro m; simp [ctzAux]
  | succ n ih =>
    intro m
    simp only [ctzAux]
    split
    · omega
    · have := ih (m / 2)
      omega

theorem ctoAux_le : ∀ fuel m, ctoAux fuel m ≤ fuel := by
  intro fuel
  induction fuel with
  | zero => intro m; simp [ctoAux]
  | succ n ih =>
    intro m
    simp only [ctoAux]
    split
    · have := ih (m / 2)
      omega
    · omega

theorem ctzAux_spec : ∀ fuel m, m ≠ 0 → m < 2 ^ fuel →
    m.testBit (ctzAux fuel m) = true ∧ ∀ j, j < ctzAux fuel m → m.testBit j = false := by
  intro fuel
  induction fuel with
  | zero => intro m h0 h1; omega
  | succ n ih =>
    intro m h0 h1
    simp only [ctzAux]
    split
    · refine ⟨by simp [*], by omega⟩
    · rename_i hodd
      have hm2 : m / 2 ≠ 0 := by omega
      have hm2lt : m / 2 < 2 ^ n := by
        have : 2 ^ (n + 1) = 2 * 2 ^ n := by ring
        omega
      obtain ⟨h2, h3⟩ := ih (m / 2) hm2 hm2lt
      constructor
      · have : 1 + ctzAux n (m / 2) = ctzAux n (m / 2) + 1 := by omega
        rw [this, Nat.testBit_add_one]
        exact h2
      · intro j hj
        match j with
        | 0 => simp; omega
        | j + 1 =>
          rw [Nat.testBit_add_one]
          exact h3 j (by omega)

theorem ctoAux_spec : ∀ fuel m, m < 2 ^ fuel →
    (∀ j, j < ctoAux fuel m → m.testBit j = true) ∧
      m.testBit (ctoAux fuel m) = false := by
  intro fuel
  induction fuel with
  | zero =>
    intro m h1
    have : m = 0 := by omega
    simp [ctoAux, this]
  | succ n ih =>
    intro m h1
    simp only [ctoAux]
    split
    · rename_i hodd
      have hm2lt : m / 2 < 2 ^ n := by
        have : 2 ^ (n + 1) = 2 * 2 ^ n := by ring
        omega
      obtain ⟨h2, h3⟩ := ih (m / 2) hm2lt
      constructor
      · intro j hj
        match j with
        | 0 => simp [hodd]
        | j + 1 =>
          rw [Nat.testBit_add_one]
          exact h2 j (by omega)
      · have : 1 + ctoAux n (m / 2) = ctoAux n (m / 2) + 1 := by omega
        rw [this, Nat.testBit_add_one]
        exact h3
    · simp
      omega

theorem countrOne_pos {m : Nat} (h : m.testBit 0 = true) : 1 ≤ countrOne m := by
  rw [countrOne]
  simp only [ctoAux]
  simp at h
  simp [h]

/-! ## groupFold and PageRuns -/

theorem groupFold_skip : ∀ (k : Nat) (po pp : Nat) (l : List Nat),
    groupFold (some (po, pp)) (List.range' pp k ++ l) =
      groupFold (some (po, pp + k)) l := by
  intro k
  induction k with
  | zero => intro po pp l; simp [List.range']
  | succ n ih =>
    intro po pp l
    rw [List.range'_succ]
    simp only [List.cons_append, groupFold, List.append_eq, if_true]
    rw [ih po (pp + 1) l]
    have h : pp + 1 + n = pp + (n + 1) := by omega
    rw [h]

theorem PageRuns_head (a c : Nat) (l : List Nat) (hc : 1 ≤ c)
    (hl : ∀ x ∈ l, x ≠ a + c) :
    PageRuns (List.range' a c ++ l) = (a, c) :: PageRuns l := by
  have hr : List.range' a c = a :: List.range' (a + 1) (c - 1) := by
    have : c = (c - 1) + 1 := by omega
    rw [this, List.range'_succ]
    simp
  rw [hr]
  have hgf : groupFold none ((a :: List.range' (a + 1) (c - 1)) ++ l) =
      groupFold (some (a, a + c)) l := by
    simp only [List.cons_append, groupFold, List.append_eq]
    rw [groupFold_skip (c - 1) a (a + 1) l]
    have hac : a + 1 + (c - 1) = a + c := by omega
    rw [hac]
  rw [PageRuns, hgf]
  have hca : a + c - a = c := by omega
  cases l with
  | nil =>
    simp only [groupFold, pendList, PageRuns, List.nil_append, hca]
  | cons x xs =>
    have hx : a + c ≠ x := Ne.symm (hl x (by simp))
    simp only [groupFold, if_neg hx]
    show ((a, a + c - a) :: (groupFold (some (x, x + 1)) xs).1) ++
        pendList (groupFold (some (x, x + 1)) xs).2 = _
    rw [hca]
    show _ = (a, c) :: ((groupFold none (x :: xs)).1 ++ pendList (groupFold none (x :: xs)).2)
    simp only [groupFold, List.cons_append]

theorem pageSeq_groupFold : ∀ (l : List Nat) (s e : Nat), s ≤ e →
    pageSeq ((groupFold (some (s, e)) l).1 ++ pendList (groupFold (some (s, e)) l).2) =
      List.range' s (e - s) ++ l := by
  intro l
  induction l with
  | nil =>
    intro s e hse
    simp [groupFold, pendList, pageSeq]
  | cons x xs ih =>
    intro s e hse
    simp only [groupFold]
    by_cases hex : e = x
    · rw [if_pos hex]
      rw [ih s (x + 1) (by omega)]
      have : List.range' s (e - s) ++ x :: xs = (List.range' s (e - s) ++ [x]) ++ xs := by
        simp
      rw [this]
      congr 1
      have h1 : x + 1 - s = (e - s) + 1 := by omega
      rw [h1, List.range'_concat]
      congr 2
      omega
    · rw [if_neg hex]
      simp only [List.cons_append, pageSeq, List.append_eq]
      rw [ih x (x + 1) (by omega)]
      simp

theorem pageSeq_PageRuns (l : List Nat) : pageSeq (PageRuns l) = l := by
  match l with
  | [] => rfl
  | x :: xs =>
    show pageSeq ((groupFold (some (x, x + 1)) xs).1 ++
      pendList (groupFold (some (x, x + 1)) xs).2) = x :: xs
    rw [pageSeq_groupFold xs x (x + 1) (by omega)]
    simp

/-! ## IteratePages produces the maximal runs of a word -/

theorem filter_range_testBit_window {n n' m : Nat} (h : n ≤ n') (hm : m < 2 ^ n) :
    (List.range n').filter (fun b => m.testBit b) =
      (List.range n).filter (fun b => m.testBit b) := by
  have hsplit : List.range n' = List.range n ++ List.range' n (n' - n) := by
    have happ := List.range'_append_1 0 n (n' - n)
    rw [Nat.zero_add, show n' - n + n = n' from by omega] at happ
    rw [List.range_eq_range', List.range_eq_range']
    exact happ.symm
  rw [hsplit, List.filter_append]
  have h2 : (List.range' n (n' - n)).filter (fun b => m.testBit b) = [] := by
    rw [List.filter_eq_nil_iff]
    intro a ha
    rw [List.mem_range'_1] at ha
    simp only [Bool.not_eq_true]
    apply Nat.testBit_lt_two_pow
    calc m < 2 ^ n := hm
      _ ≤ 2 ^ a := Nat.pow_le_pow_right (by omega) ha.1
  rw [h2, List.append_nil]

theorem filter_range_of_pattern (m ez cb : Nat)
    (h0 : ∀ j, j < ez → m.testBit j = false)
    (h1 : ∀ j, j < cb → m.testBit (ez + j) = true) :
    (List.range (ez + cb)).filter (fun b => m.testBit b) = List.range' ez cb := by
  have hsplit : List.range (ez + cb) = List.range' 0 ez ++ List.range' ez cb := by
    have happ := List.range'_append_1 0 ez cb
    rw [Nat.zero_add, show cb + ez = ez + cb from by omega] at happ
    rw [List.range_eq_range']
    exact happ.symm
  rw [hsplit, List.filter_append]
  have hz : (List.range' 0 ez).filter (fun b => m.testBit b) = [] := by
    rw [List.filter_eq_nil_iff]
    intro a ha
    rw [List.mem_range'_1] at ha
    simp only [Bool.not_eq_true]
    exact h0 a (by omega)
  have ho : (List.range' ez cb).filter (fun b => m.testBit b) = List.range' ez cb := by
    rw [List.filter_eq_self]
    intro a ha
    rw [List.mem_range'_1] at ha
    have := h1 (a - ez) (by omega)
    have hea : ez + (a - ez) = a := by omega
    rw [hea] at this
    simp [this]
  rw [hz, ho, List.nil_append]

theorem filter_range'_testBit_shift (m a n : Nat) :
    (List.range' a n).filter (fun b => m.testBit b) =
      ((List.range n).filter (fun b => (m >>> a).testBit b)).map (fun b => a + b) := by
  rw [List.range'_eq_map_range, List.filter_map]
  congr 1
  apply List.filter_congr
  intro x _
  simp [Nat.testBit_shiftRight]

theorem map_range'_add (a b n : Nat) :
    (List.range' a n).map (fun x => b + x) = List.range' (b + a) n := by
  rw [List.range'_eq_map_range, List.range'_eq_map_range, List.map_map]
  apply List.map_congr_left
  intro x _
  simp only [Function.comp_apply]
  omega

theorem iteratePagesAux_spec : ∀ fuel m off, fuel ≤ 64 → m < 2 ^ fuel →
    iteratePagesAux fuel m off =
      PageRuns (((List.range fuel).filter (fun b => m.testBit b)).map (fun b => off + b)) := by
  intro fuel
  induction fuel with
  | zero =>
    intro m off h64 hm
    have hm0 : m = 0 := by omega
    simp [iteratePagesAux, hm0, PageRuns, groupFold, pendList]
  | succ n ih =>
    intro m off h64 hm
    by_cases hm0 : m = 0
    · simp [iteratePagesAux, hm0, PageRuns, groupFold, pendList]
    · have hm64 : m < 2 ^ 64 := by
        calc m < 2 ^ (n + 1) := hm
          _ ≤ 2 ^ 64 := Nat.pow_le_pow_right (by omega) h64
      have hcz := ctzAux_spec 64 m hm0 hm64
      set ez := countrZero m with hez
      have hczbit : m.testBit ez = true := hcz.1
      have hczlow : ∀ j, j < ez → m.testBit j = false := hcz.2
      have hezn : ez < n + 1 := by
        by_contra hcon
        have hfalse : m.testBit ez = false := Nat.testBit_lt_two_pow (by
          calc m < 2 ^ (n + 1) := hm
            _ ≤ 2 ^ ez := Nat.pow_le_pow_right (by omega) (by omega))
        rw [hfalse] at hczbit
        exact Bool.false_ne_true hczbit
      set m2 := m >>> ez with hm2
      have hm2bit : ∀ j, m2.testBit j = m.testBit (ez + j) := by
        intro j
        rw [hm2, Nat.testBit_shiftRight]
      have hm2_64 : m2 < 2 ^ 64 := by
        calc m2 ≤ m := by rw [hm2, Nat.shiftRight_eq_div_pow]; exact Nat.div_le_self _ _
          _ < 2 ^ 64 := hm64
      have hcto := ctoAux_spec 64 m2 hm2_64
      set cb := countrOne m2 with hcb
      have hones : ∀ j, j < cb → m2.testBit j = true := hcto.1
      have hcbbit : m2.testBit cb = false := hcto.2
      have hcb1 : 1 ≤ cb := by
        apply countrOne_pos
        rw [hm2bit 0]
        have h00 : ez + 0 = ez := by omega
        rw [h00]
        exact hczbit
      have hbits_on : ∀ j, j < cb → m.testBit (ez + j) = true := by
        intro j hj
        rw [← hm2bit j]
        exact hones j hj
      have hbit_off : m.testBit (ez + cb) = false := by
        rw [← hm2bit cb]
        exact hcbbit
      have hezcb : ez + cb ≤ n + 1 := by
        by_contra hcon
        have h1 : m.testBit (ez + (cb - 1)) = true := hbits_on (cb - 1) (by omega)
        have h2 : m.testBit (ez + (cb - 1)) = false := Nat.testBit_lt_two_pow (by
          calc m < 2 ^ (n + 1) := hm
            _ ≤ 2 ^ (ez + (cb - 1)) := Nat.pow_le_pow_right (by omega) (by omega))
        rw [h1] at h2
        exact Bool.false_ne_true h2.symm
      have hmain : (if cb < PAGES_PER_WORD then m2 >>> cb else 0) = m >>> (ez + cb) := by
        by_cases hlt : cb < PAGES_PER_WORD
        · rw [if_pos hlt, hm2, ← Nat.shiftRight_add]
        · rw [if_neg hlt]
          have hge : 64 ≤ cb := by
            simp only [PAGES_PER_WORD] at hlt
            omega
          have hltm : m < 2 ^ (ez + cb) := by
            calc m < 2 ^ (n + 1) := hm
              _ ≤ 2 ^ (ez + cb) := Nat.pow_le_pow_right (by omega) (by omega)
          rw [Nat.shiftRight_eq_div_pow, Nat.div_eq_of_lt hltm]
      set m3 := m >>> (ez + cb) with hm3def
      have hm3small : m3 < 2 ^ (n + 1 - (ez + cb)) := by
        rw [hm3def, Nat.shiftRight_eq_div_pow]
        apply Nat.div_lt_of_lt_mul
        calc m < 2 ^ (n + 1) := hm
          _ = 2 ^ (ez + cb) * 2 ^ (n + 1 - (ez + cb)) := by
            rw [← Nat.pow_add]
            congr 1
            omega
      have hm3n : m3 < 2 ^ n :=
        lt_of_lt_of_le hm3small (Nat.pow_le_pow_right (by omega) (by omega))
      have hm3bit0 : m3.testBit 0 = false := by
        rw [hm3def, Nat.testBit_shiftRight]
        have : ez + cb + 0 = ez + cb := by omega
        rw [this]
        exact hbit_off
      -- unfold one iteration of the loop
      have hstep : iteratePagesAux (n + 1) m off =
          (off + ez, cb) :: iteratePagesAux n m3 (off + ez + cb) := by
        simp only [iteratePagesAux]
        rw [if_neg hm0, ← hez, ← hm2, ← hcb, hmain]
      rw [hstep, ih m3 (off + ez + cb) (by omega) hm3n]
      -- restructure the right-hand side
      have hrsplit : (List.range (n + 1)).filter (fun b => m.testBit b) =
          List.range' ez cb ++
            (((List.range (n + 1 - (ez + cb))).filter (fun b => m3.testBit b)).map
              (fun b => (ez + cb) + b)) := by
        have h1 : List.range (n + 1) =
            List.range (ez + cb) ++ List.range' (ez + cb) (n + 1 - (ez + cb)) := by
          have happ := List.range'_append_1 0 (ez + cb) (n + 1 - (ez + cb))
          rw [Nat.zero_add, show n + 1 - (ez + cb) + (ez + cb) = n + 1 from by omega] at happ
          rw [List.range_eq_range', List.range_eq_range']
          exact happ.symm
        rw [h1, List.filter_append, filter_range_of_pattern m ez cb hczlow hbits_on,
          filter_range'_testBit_shift m (ez + cb) (n + 1 - (ez + cb)), hm3def]
      rw [hrsplit, List.map_append, map_range'_add ez off cb]
      have hmm : ((((List.range (n + 1 - (ez + cb))).filter (fun b => m3.testBit b)).map
          (fun b => (ez + cb) + b)).map (fun b => off + b)) =
          ((List.range (n + 1 - (ez + cb))).filter (fun b => m3.testBit b)).map
            (fun b => (off + ez + cb) + b) := by
        rw [List.map_map]
        apply List.map_congr_left
        intro x _
        simp only [Function.comp_apply]
        omega
      rw [hmm]
      have htail : ∀ x ∈ ((List.range (n + 1 - (ez + cb))).filter
          (fun b => m3.testBit b)).map (fun b => (off + ez + cb) + b),
          x ≠ (off + ez) + cb := by
        intro x hx
        rw [List.mem_map] at hx
        obtain ⟨b, hb, rfl⟩ := hx
        rw [List.mem_filter] at hb
        have hb0 : b ≠ 0 := by
          intro h0
          rw [h0, hm3bit0] at hb
          exact Bool.false_ne_true hb.2
        omega
      rw [PageRuns_head (off + ez) cb _ hcb1 htail]
      have hwin : (List.range (n + 1 - (ez + cb))).filter (fun b => m3.testBit b) =
          (List.range n).filter (fun b => m3.testBit b) :=
        (filter_range_testBit_window (by omega) hm3small).symm
      rw [hwin]

theorem IteratePages_eq_PageRuns (m : Nat) (hm : m < 2 ^ 64) :
    IteratePages m = PageRuns ((List.range 64).filter (fun b => m.testBit b)) := by
  rw [IteratePages, iteratePagesAux_spec 64 m 0 (by omega) hm]
  congr 1
  have h : ∀ l : List Nat, l.map (fun b => 0 + b) = l := by
    intro l
    induction l with
    | nil => rfl
    | cons x xs ih => simp [ih]
  exact h _

/-! ## The pending-run merger processes runs like single pages -/

theorem mergeFold_eq_groupFold : ∀ (l : List (Nat × Nat)) (p : Option (Nat × Nat)),
    (∀ r ∈ l, 1 ≤ r.2) → mergeFold p l = groupFold p (pageSeq l) := by
  intro l
  induction l with
  | nil => intro p _; cases p <;> rfl
  | cons r rs ih =>
    intro p hpos
    have hr2 : 1 ≤ r.2 := hpos r (by simp)
    have hrest : ∀ x ∈ rs, 1 ≤ x.2 := fun x hx => hpos x (by simp [hx])
    have hrange : List.range' r.1 r.2 = r.1 :: List.range' (r.1 + 1) (r.2 - 1) := by
      have h : r.2 = (r.2 - 1) + 1 := by omega
      rw [h, List.range'_succ]
      simp
    show mergeFold p (r :: rs) = groupFold p (List.range' r.1 r.2 ++ pageSeq rs)
    match p with
    | none =>
      rw [hrange]
      show mergeFold (some (r.1, r.1 + r.2)) rs =
        groupFold (some (r.1, r.1 + 1)) (List.range' (r.1 + 1) (r.2 - 1) ++ pageSeq rs)
      rw [groupFold_skip (r.2 - 1) r.1 (r.1 + 1) (pageSeq rs),
        show r.1 + 1 + (r.2 - 1) = r.1 + r.2 from by omega]
      exact ih _ hrest
    | some (po, pp) =>
      by_cases hppr : pp = r.1
      · show (if pp = r.1 then mergeFold (some (po, r.1 + r.2)) rs else _) = _
        rw [if_pos hppr, hppr]
        have h2 : List.range' r.1 r.2 ++ pageSeq rs =
            List.range' r.1 r.2 ++ pageSeq rs := rfl
        rw [show (some (po, r.1) : Option (Nat × Nat)) = some (po, r.1) from rfl]
        rw [groupFold_skip r.2 po r.1 (pageSeq rs)]
        exact ih _ hrest
      · show (if pp = r.1 then _ else
          ((po, pp - po) :: (mergeFold (some (r.1, r.1 + r.2)) rs).1,
            (mergeFold (some (r.1, r.1 + r.2)) rs).2)) = _
        rw [if_neg hppr, hrange]
        show _ = (if pp = r.1 then _ else
          ((po, pp - po) :: (groupFold (some (r.1, r.1 + 1))
              (List.range' (r.1 + 1) (r.2 - 1) ++ pageSeq rs)).1,
            (groupFold (some (r.1, r.1 + 1))
              (List.range' (r.1 + 1) (r.2 - 1) ++ pageSeq rs)).2))
        rw [if_neg hppr]
        rw [groupFold_skip (r.2 - 1) r.1 (r.1 + 1) (pageSeq rs),
          show r.1 + 1 + (r.2 - 1) = r.1 + r.2 from by omega]
        rw [ih _ hrest]

theorem mergeRuns_eq_PageRuns (l : List (Nat × Nat)) (h : ∀ r ∈ l, 1 ≤ r.2) :
    mergeRuns l = PageRuns (pageSeq l) := by
  rw [mergeRuns, PageRuns, mergeFold_eq_groupFold l none h]

theorem groupFold_pos : ∀ (l : List Nat) (po pp : Nat), po < pp →
    ∀ r ∈ (groupFold (some (po, pp)) l).1 ++ pendList (groupFold (some (po, pp)) l).2,
      1 ≤ r.2 := by
  intro l
  induction l with
  | nil =>
    intro po pp hpp r hr
    simp only [groupFold, pendList, List.nil_append, List.mem_singleton] at hr
    rw [hr]
    show 1 ≤ pp - po
    omega
  | cons x xs ih =>
    intro po pp hpp r hr
    simp only [groupFold] at hr
    by_cases hex : pp = x
    · rw [if_pos hex] at hr
      exact ih po (x + 1) (by omega) r hr
    · rw [if_neg hex] at hr
      simp only [List.cons_append, List.mem_cons] at hr
      rcases hr with hr | hr
      · rw [hr]
        simp
        omega
      · exact ih x (x + 1) (by omega) r hr

theorem PageRuns_pos (l : List Nat) : ∀ r ∈ PageRuns l, 1 ≤ r.2 := by
  match l with
  | [] => intro r hr; simp [PageRuns, groupFold, pendList] at hr
  | x :: xs =>
    intro r hr
    exact groupFold_pos xs x (x + 1) (by omega) r hr

theorem IteratePages_pos (m : Nat) (hm : m < 2 ^ 64) :
    ∀ r ∈ IteratePages m, 1 ≤ r.2 := by
  rw [IteratePages_eq_PageRuns m hm]
  exact PageRuns_pos _

theorem pageSeq_append : ∀ l1 l2 : List (Nat × Nat),
    pageSeq (l1 ++ l2) = pageSeq l1 ++ pageSeq l2 := by
  intro l1
  induction l1 with
  | nil => intro l2; rfl
  | cons r rs ih =>
    intro l2
    simp only [List.cons_append, pageSeq, List.append_eq, ih, List.append_assoc]

theorem pageSeq_map_shift (b : Nat) : ∀ l : List (Nat × Nat),
    pageSeq (l.map fun r => (b + r.1, r.2)) = (pageSeq l).map (fun x => b + x) := by
  intro l
  induction l with
  | nil => rfl
  | cons r rs ih =>
    simp only [List.map_cons, pageSeq, ih, List.map_append]
    rw [map_range'_add]

theorem mergeFold_append : ∀ (l1 l2 : List (Nat × Nat)) (p : Option (Nat × Nat)),
    mergeFold p (l1 ++ l2) =
      ((mergeFold p l1).1 ++ (mergeFold (mergeFold p l1).2 l2).1,
        (mergeFold (mergeFold p l1).2 l2).2) := by
  intro l1
  induction l1 with
  | nil =>
    intro l2 p
    cases p <;> simp [mergeFold]
  | cons r rs ih =>
    intro l2 p
    match p with
    | none =>
      show mergeFold (some (r.1, r.1 + r.2)) (rs ++ l2) = _
      rw [ih l2 (some (r.1, r.1 + r.2))]
      rfl
    | some (po, pp) =>
      by_cases hppr : pp = r.1
      · show (if pp = r.1 then mergeFold (some (po, r.1 + r.2)) (rs ++ l2) else _) = _
        rw [if_pos hppr, ih l2 (some (po, r.1 + r.2))]
        simp only [mergeFold, if_pos hppr]
      · show (if pp = r.1 then _ else
            ((po, pp - po) :: (mergeFold (some (r.1, r.1 + r.2)) (rs ++ l2)).1,
              (mergeFold (some (r.1, r.1 + r.2)) (rs ++ l2)).2)) = _
        rw [if_neg hppr, ih l2 (some (r.1, r.1 + r.2))]
        simp only [mergeFold, if_neg hppr, List.cons_append]

/-! ## The ForEachModifiedRange fold -/

theorem femrPageStep_st (ca b : Nat) (acc : FemrAcc) (r : Nat × Nat) :
    (femrPageStep ca b acc r).st = acc.st ∧
      (femrPageStep ca b acc r).notifs = acc.notifs := by
  unfold femrPageStep
  by_cases h1 : acc.pending = false
  · rw [if_pos h1]
    exact ⟨rfl, rfl⟩
  · rw [if_neg h1]
    by_cases h2 : acc.pending_pointer = b + r.1
    · rw [if_pos h2]
      exact ⟨rfl, rfl⟩
    · rw [if_neg h2]
      exact ⟨rfl, rfl⟩

theorem femrPageFold_st (ca b : Nat) : ∀ (runs : List (Nat × Nat)) (acc : FemrAcc),
    (runs.foldl (femrPageStep ca b) acc).st = acc.st ∧
      (runs.foldl (femrPageStep ca b) acc).notifs = acc.notifs := by
  intro runs
  induction runs with
  | nil => intro acc; exact ⟨rfl, rfl⟩
  | cons r rs ih =>
    intro acc
    obtain ⟨h1, h2⟩ := femrPageStep_st ca b acc r
    obtain ⟨h3, h4⟩ := ih (femrPageStep ca b acc r)
    exact ⟨h3.trans h1, h4.trans h2⟩

theorem femrPageFold_merge (ca b : Nat) : ∀ (runs : List (Nat × Nat)) (acc : FemrAcc),
    (runs.foldl (femrPageStep ca b) acc).calls =
      acc.calls ++ (mergeFold (pendAcc acc) (runs.map fun r => (b + r.1, r.2))).1.map
        (fun r => (ca + r.1 * BYTES_PER_PAGE, r.2 * BYTES_PER_PAGE)) ∧
    pendAcc (runs.foldl (femrPageStep ca b) acc) =
      (mergeFold (pendAcc acc) (runs.map fun r => (b + r.1, r.2))).2 := by
  intro runs
  induction runs with
  | nil =>
    intro acc
    cases h : pendAcc acc <;> simp [mergeFold, h]
  | cons r rs ih =>
    intro acc
    by_cases h1 : acc.pending = false
    · have hpa : pendAcc acc = none := by simp [pendAcc, h1]
      have hstep : femrPageStep ca b acc r =
          { acc with
            pending := true
            pending_offset := b + r.1
            pending_pointer := b + r.1 + r.2 } := by
        unfold femrPageStep
        rw [if_pos h1]
      rw [List.foldl_cons, hstep]
      obtain ⟨ih1, ih2⟩ := ih _
      have hpa2 : pendAcc { acc with
          pending := true
          pending_offset := b + r.1
          pending_pointer := b + r.1 + r.2 } = some (b + r.1, b + r.1 + r.2) := by
        simp [pendAcc]
      rw [hpa2] at ih1 ih2
      rw [List.map_cons, hpa]
      show _ ∧ _
      constructor
      · rw [ih1]
        show _ = acc.calls ++ (mergeFold (some (b + r.1, b + r.1 + r.2)) _).1.map _
        rfl
      · rw [ih2]
        rfl
    · have hp : acc.pending = true := by
        cases h : acc.pending
        · exact absurd h h1
        · rfl
      have hpa : pendAcc acc = some (acc.pending_offset, acc.pending_pointer) := by
        simp [pendAcc, hp]
      by_cases h2 : acc.pending_pointer = b + r.1
      · have hstep : femrPageStep ca b acc r =
            { acc with pending_pointer := b + r.1 + r.2 } := by
          unfold femrPageStep
          rw [if_neg h1, if_pos h2]
        rw [List.foldl_cons, hstep]
        obtain ⟨ih1, ih2⟩ := ih { acc with pending_pointer := b + r.1 + r.2 }
        have hpa2 : pendAcc { acc with pending_pointer := b + r.1 + r.2 } =
            some (acc.pending_offset, b + r.1 + r.2) := by
          simp [pendAcc, hp]
        rw [hpa2] at ih1 ih2
        have hmf : mergeFold (some (acc.pending_offset, acc.pending_pointer))
            ((b + r.1, r.2) :: (rs.map fun r => (b + r.1, r.2))) =
            mergeFold (some (acc.pending_offset, b + r.1 + r.2))
              (rs.map fun r => (b + r.1, r.2)) := by
          simp only [mergeFold]
          rw [if_pos h2]
        rw [List.map_cons, hpa, hmf]
        exact ⟨ih1, ih2⟩
      · have hstep : femrPageStep ca b acc r =
            { acc with
              calls := acc.calls ++
                [(ca + acc.pending_offset * BYTES_PER_PAGE,
                  (acc.pending_pointer - acc.pending_offset) * BYTES_PER_PAGE)]
              pending_offset := b + r.1
              pending_pointer := b + r.1 + r.2 } := by
          unfold femrPageStep
          rw [if_neg h1, if_neg h2]
        rw [List.foldl_cons, hstep]
        obtain ⟨ih1, ih2⟩ := ih _
        have hpa2 : pendAcc { acc with
            calls := acc.calls ++
              [(ca + acc.pending_offset * BYTES_PER_PAGE,
                (acc.pending_pointer - acc.pending_offset) * BYTES_PER_PAGE)]
            pending_offset := b + r.1
            pending_pointer := b + r.1 + r.2 } = some (b + r.1, b + r.1 + r.2) := by
          simp [pendAcc, hp]
        rw [hpa2] at ih1 ih2
        rw [List.map_cons, hpa]
        have hmf : mergeFold (some (acc.pending_offset, acc.pending_pointer))
            ((b + r.1, r.2) :: rs.map fun r => (b + r.1, r.2)) =
            ((acc.pending_offset, acc.pending_pointer - acc.pending_offset) ::
              (mergeFold (some (b + r.1, b + r.1 + r.2)) (rs.map fun r => (b + r.1, r.2))).1,
              (mergeFold (some (b + r.1, b + r.1 + r.2)) (rs.map fun r => (b + r.1, r.2))).2) := by
          show (if acc.pending_pointer = b + r.1 then _ else _) = _
          rw [if_neg h2]
        constructor
        · rw [ih1, hmf]
          simp only [List.map_cons]
          rw [List.append_assoc]
          rfl
        · rw [ih2, hmf]

theorem femrStClear_cpu_addr (t : Side) (c : Bool) (st : RegionManager) (im : Nat × Nat) :
    (femrStClear t c st im).cpu_addr = st.cpu_addr := by
  unfold femrStClear
  by_cases hc : c
  · rw [if_pos hc]
    cases t <;> rfl
  · rw [if_neg hc]

theorem femrStClear_other (t : Side) (c : Bool) (st : RegionManager) (im : Nat × Nat)
    (j : Nat) (hj : j ≠ im.1) :
    (femrStClear t c st im).cpu j = st.cpu j ∧
      (femrStClear t c st im).gpu j = st.gpu j ∧
      (femrStClear t c st im).write j = st.write j ∧
      (femrStClear t c st im).read j = st.read j := by
  unfold femrStClear
  by_cases hc : c
  · rw [if_pos hc]
    cases t <;> simp [upd, hj]
  · rw [if_neg hc]
    exact ⟨rfl, rfl, rfl, rfl⟩

theorem femrClearNotifs_congr (t : Side) (c : Bool) (st rm : RegionManager)
    (im : Nat × Nat) (hw : st.write im.1 = rm.write im.1)
    (hr : st.read im.1 = rm.read im.1) (ha : st.cpu_addr = rm.cpu_addr) :
    femrClearNotifs t c st im = femrClearNotifs t c rm im := by
  unfold femrClearNotifs
  by_cases hc : c
  · rw [if_pos hc, if_pos hc]
    cases t
    · rw [hw, ha]
    · rw [hr, ha]
  · rw [if_neg hc, if_neg hc]

theorem femrWordStep_char (t : Side) (c : Bool) (acc : FemrAcc) (im : Nat × Nat) :
    (femrWordStep t c acc im).st = femrStClear t c acc.st im ∧
      (femrWordStep t c acc im).notifs = acc.notifs ++ femrClearNotifs t c acc.st im := by
  unfold femrWordStep
  obtain ⟨h1, h2⟩ := femrPageFold_st acc.st.cpu_addr (im.1 * PAGES_PER_WORD)
    (IteratePages (Span t acc.st im.1 &&& im.2))
    { acc with
      st := femrStClear t c acc.st im
      notifs := acc.notifs ++ femrClearNotifs t c acc.st im }
  exact ⟨h1, h2⟩

theorem femr_fold_st (t : Side) (c : Bool) : ∀ (L : List (Nat × Nat)) (acc : FemrAcc),
    (L.foldl (femrWordStep t c) acc).st = L.foldl (femrStClear t c) acc.st := by
  intro L
  induction L with
  | nil => intro acc; rfl
  | cons im L ih =>
    intro acc
    rw [List.foldl_cons, List.foldl_cons, ih]
    congr 1
    exact (femrWordStep_char t c acc im).1

theorem Span_congr (t : Side) (st rm : RegionManager) (i : Nat)
    (hc : st.cpu i = rm.cpu i) (hg : st.gpu i = rm.gpu i) :
    Span t st i = Span t rm i := by
  cases t
  · exact hc
  · exact hg

theorem femr_fold_spec (t : Side) (c : Bool) (rm : RegionManager) :
    ∀ (L : List (Nat × Nat)) (acc : FemrAcc),
      L.Pairwise (fun a b => a.1 < b.1) →
      (∀ im ∈ L, acc.st.cpu im.1 = rm.cpu im.1 ∧ acc.st.gpu im.1 = rm.gpu im.1 ∧
        acc.st.write im.1 = rm.write im.1 ∧ acc.st.read im.1 = rm.read im.1) →
      acc.st.cpu_addr = rm.cpu_addr →
      (L.foldl (femrWordStep t c) acc).calls =
        acc.calls ++ (mergeFold (pendAcc acc) (flatRuns t rm L)).1.map
          (fun r => (rm.cpu_addr + r.1 * BYTES_PER_PAGE, r.2 * BYTES_PER_PAGE)) ∧
      pendAcc (L.foldl (femrWordStep t c) acc) =
        (mergeFold (pendAcc acc) (flatRuns t rm L)).2 ∧
      (L.foldl (femrWordStep t c) acc).notifs = acc.notifs ++ femrNotifs t c rm L ∧
      (L.foldl (femrWordStep t c) acc).st.cpu_addr = rm.cpu_addr := by
  intro L
  induction L with
  | nil =>
    intro acc _ _ hca
    simp only [List.foldl_nil, flatRuns, femrNotifs]
    cases h : pendAcc acc <;> simp [mergeFold, h, hca]
  | cons im L ih =>
    intro acc hpw hagree hca
    rw [List.pairwise_cons] at hpw
    obtain ⟨hhead, htail⟩ := hpw
    obtain ⟨ha1, ha2, ha3, ha4⟩ := hagree im (by simp)
    have hword : Span t acc.st im.1 &&& im.2 = Span t rm im.1 &&& im.2 := by
      rw [Span_congr t acc.st rm im.1 ha1 ha2]
    -- one word step
    have hacc1st : (femrWordStep t c acc im).st = femrStClear t c acc.st im :=
      (femrWordStep_char t c acc im).1
    have hacc1n : (femrWordStep t c acc im).notifs =
        acc.notifs ++ femrClearNotifs t c rm im := by
      rw [(femrWordStep_char t c acc im).2,
        femrClearNotifs_congr t c acc.st rm im ha3 ha4 hca]
    have hacc1merge := femrPageFold_merge acc.st.cpu_addr (im.1 * PAGES_PER_WORD)
      (IteratePages (Span t acc.st im.1 &&& im.2))
      { acc with
        st := femrStClear t c acc.st im
        notifs := acc.notifs ++ femrClearNotifs t c acc.st im }
    have hacc1 : femrWordStep t c acc im =
        (IteratePages (Span t acc.st im.1 &&& im.2)).foldl
          (femrPageStep acc.st.cpu_addr (im.1 * PAGES_PER_WORD))
          { acc with
            st := femrStClear t c acc.st im
            notifs := acc.notifs ++ femrClearNotifs t c acc.st im } := rfl
    have hpa2 : pendAcc { acc with
        st := femrStClear t c acc.st im
        notifs := acc.notifs ++ femrClearNotifs t c acc.st im } = pendAcc acc := rfl
    rw [hpa2] at hacc1merge
    -- apply the induction hypothesis to the tail
    have hagree2 : ∀ jm ∈ L, (femrWordStep t c acc im).st.cpu jm.1 = rm.cpu jm.1 ∧
        (femrWordStep t c acc im).st.gpu jm.1 = rm.gpu jm.1 ∧
        (femrWordStep t c acc im).st.write jm.1 = rm.write jm.1 ∧
        (femrWordStep t c acc im).st.read jm.1 = rm.read jm.1 := by
      intro jm hjm
      have hne : jm.1 ≠ im.1 := by
        have := hhead jm hjm
        omega
      obtain ⟨hb1, hb2, hb3, hb4⟩ := femrStClear_other t c acc.st im jm.1 hne
      obtain ⟨hc1, hc2, hc3, hc4⟩ := hagree jm (List.mem_cons_of_mem im hjm)
      rw [hacc1st]
      exact ⟨hb1.trans hc1, hb2.trans hc2, hb3.trans hc3, hb4.trans hc4⟩
    have hca2 : (femrWordStep t c acc im).st.cpu_addr = rm.cpu_addr := by
      rw [hacc1st, femrStClear_cpu_addr]
      exact hca
    obtain ⟨ih1, ih2, ih3, ih4⟩ := ih (femrWordStep t c acc im) htail hagree2 hca2
    rw [List.foldl_cons]
    have hruns : flatRuns t rm (im :: L) =
        ((IteratePages (Span t rm im.1 &&& im.2)).map
          (fun r => (im.1 * PAGES_PER_WORD + r.1, r.2))) ++ flatRuns t rm L := rfl
    have hsplit := mergeFold_append
      ((IteratePages (Span t rm im.1 &&& im.2)).map
        (fun r => (im.1 * PAGES_PER_WORD + r.1, r.2)))
      (flatRuns t rm L) (pendAcc acc)
    -- word-level merge result, rebased to rm
    obtain ⟨hm1, hm2⟩ := hacc1merge
    rw [← hacc1] at hm1 hm2
    rw [hword] at hm1 hm2
    have hm1rm : (femrWordStep t c acc im).calls =
        acc.calls ++ (mergeFold (pendAcc acc)
          ((IteratePages (Span t rm im.1 &&& im.2)).map
            (fun r => (im.1 * PAGES_PER_WORD + r.1, r.2)))).1.map
          (fun r => (rm.cpu_addr + r.1 * BYTES_PER_PAGE, r.2 * BYTES_PER_PAGE)) := by
      rw [hm1, hca]
    refine ⟨?_, ?_, ?_, ih4⟩
    · rw [ih1, hm1rm, hm2, hruns, hsplit]
      rw [List.map_append, List.append_assoc]
    · rw [ih2, hm2, hruns, hsplit]
    · rw [ih3, hacc1n]
      show _ = acc.notifs ++ (femrClearNotifs t c rm im ++ femrNotifs t c rm L)
      rw [List.append_assoc]

/-! ## Canonical facts about the word list -/

theorem canonWords_pairwise (ps pe : Nat) :
    (canonWords ps pe).Pairwise (fun a b => a.1 < b.1) := by
  unfold canonWords
  rw [List.pairwise_map]
  exact (List.pairwise_lt_range _).imp (fun h => by omega)

theorem iterateWords_pairwise (o s : Nat) :
    (iterateWords o s).Pairwise (fun a b => a.1 < b.1) := by
  rw [iterateWords_eq_canon]
  exact canonWords_pairwise _ _

theorem clippedRange_cases (o s : Nat) :
    clippedRange o s = (0, 0) ∨
      ((clippedRange o s).1 < (clippedRange o s).2 ∧ (clippedRange o s).2 ≤ 1024 ∧
        (clippedRange o s).1 < 1024) := by
  unfold clippedRange
  by_cases h : HIGHER_PAGE_SIZE ≤ clampNat (toS64 o) ∨
      clampNat (toS64 ((o + s) % 2 ^ 64)) ≤ clampNat (toS64 o)
  · rw [if_pos h]
    left
    rfl
  · rw [if_neg h]
    right
    push_neg at h
    obtain ⟨h1, h2⟩ := h
    have hHP : HIGHER_PAGE_SIZE = 4194304 := rfl
    have hBP : BYTES_PER_PAGE = 4096 := rfl
    rw [hHP] at h1
    simp only [hBP]
    omega

theorem canonWords_mem_bounds {ps pe i m : Nat} (hpe : pe ≤ 1024)
    (h : (i, m) ∈ canonWords ps pe) : i < 16 ∧ m < 2 ^ 64 := by
  unfold canonWords at h
  rw [List.mem_map] at h
  obtain ⟨k, hk, heq⟩ := h
  rw [List.mem_range] at hk
  obtain ⟨hi, hm⟩ := Prod.mk.injEq _ _ _ _ |>.mp heq
  constructor
  · omega
  · rw [← hm]
    exact bitsIn_lt _ _ (by omega)

theorem iterateWords_mem_bounds {o s i m : Nat} (h : (i, m) ∈ iterateWords o s) :
    i < 16 ∧ m < 2 ^ 64 := by
  rw [iterateWords_eq_canon] at h
  rcases clippedRange_cases o s with hc | ⟨_, hc2, _⟩
  · rw [hc] at h
    have : canonWords 0 0 = [] := rfl
    rw [this] at h
    simp at h
  · exact canonWords_mem_bounds hc2 h

theorem flatRuns_pos (t : Side) (rm : RegionManager) : ∀ L : List (Nat × Nat),
    (∀ im ∈ L, im.2 < 2 ^ 64) → ∀ r ∈ flatRuns t rm L, 1 ≤ r.2 := by
  intro L
  induction L with
  | nil => intro _ r hr; simp [flatRuns] at hr
  | cons im L ih =>
    intro hm r hr
    simp only [flatRuns, List.mem_append] at hr
    rcases hr with hr | hr
    · rw [List.mem_map] at hr
      obtain ⟨x, hx, hxr⟩ := hr
      have hword : Span t rm im.1 &&& im.2 < 2 ^ 64 :=
        Nat.lt_of_le_of_lt Nat.and_le_right (hm im (by simp))
      have := IteratePages_pos _ hword x hx
      rw [← hxr]
      exact this
    · exact ih (fun jm hjm => hm jm (by simp [hjm])) r hr

/-- The callbacks of ForEachModifiedRange are the merged page runs of the
modified words, converted to byte ranges; its notifications are the per-word
clear notifications; its final state is the per-word clear fold. -/
theorem ForEachModifiedRange_char (t : Side) (c : Bool) (rm : RegionManager) (q s : Nat) :
    (ForEachModifiedRange t c rm q s).calls =
      (mergeRuns (flatRuns t rm (iterateWords (sub64 q rm.cpu_addr) s))).map
        (fun r => (rm.cpu_addr + r.1 * BYTES_PER_PAGE, r.2 * BYTES_PER_PAGE)) ∧
    (ForEachModifiedRange t c rm q s).notifs =
      femrNotifs t c rm (iterateWords (sub64 q rm.cpu_addr) s) ∧
    (ForEachModifiedRange t c rm q s).st =
      (iterateWords (sub64 q rm.cpu_addr) s).foldl (femrStClear t c) rm := by
  obtain ⟨h1, h2, h3, h4⟩ := femr_fold_spec t c rm (iterateWords (sub64 q rm.cpu_addr) s)
    ⟨rm, false, 0, 0, [], []⟩ (iterateWords_pairwise _ _)
    (fun im _ => ⟨rfl, rfl, rfl, rfl⟩) rfl
  have hst := femr_fold_st t c (iterateWords (sub64 q rm.cpu_addr) s) ⟨rm, false, 0, 0, [], []⟩
  set L := iterateWords (sub64 q rm.cpu_addr) s with hL
  set res := L.foldl (femrWordStep t c) ⟨rm, false, 0, 0, [], []⟩ with hres
  have hpa0 : pendAcc (⟨rm, false, 0, 0, [], []⟩ : FemrAcc) = none := rfl
  rw [hpa0] at h1 h2
  have hout : ForEachModifiedRange t c rm q s =
      { st := res.st
        calls := res.calls ++
          (if res.pending then
            [(res.st.cpu_addr + res.pending_offset * BYTES_PER_PAGE,
              (res.pending_pointer - res.pending_offset) * BYTES_PER_PAGE)]
           else [])
        notifs := res.notifs } := rfl
  rw [hout]
  refine ⟨?_, h3, hst⟩
  have hfin : (if res.pending then
      [(res.st.cpu_addr + res.pending_offset * BYTES_PER_PAGE,
        (res.pending_pointer - res.pending_offset) * BYTES_PER_PAGE)]
      else []) = (pendList (pendAcc res)).map
        (fun r => (rm.cpu_addr + r.1 * BYTES_PER_PAGE, r.2 * BYTES_PER_PAGE)) := by
    by_cases hp : res.pending
    · rw [if_pos hp]
      have : pendAcc res = some (res.pending_offset, res.pending_pointer) := by
        simp [pendAcc, hp]
      rw [this, pendList, List.map_cons, List.map_nil, h4]
    · rw [if_neg hp]
      have : pendAcc res = none := by
        simp [pendAcc, hp]
      rw [this, pendList, List.map_nil]
  show res.calls ++ _ = _
  rw [hfin, h1, h2, mergeRuns, List.map_append, List.nil_append]

/-! ## The modified pages of the clipped range, word by word -/

theorem filter_range_window (q : Nat → Bool) (lo hi n : Nat) (h1 : lo ≤ hi) (h2 : hi ≤ n) :
    (List.range n).filter (fun b => (decide (lo ≤ b) && decide (b < hi)) && q b) =
      (List.range' lo (hi - lo)).filter q := by
  have ha := List.range'_append_1 0 lo (hi - lo)
  rw [Nat.zero_add, show hi - lo + lo = hi from by omega] at ha
  have hb := List.range'_append_1 0 hi (n - hi)
  rw [Nat.zero_add, show n - hi + hi = n from by omega] at hb
  have hsp : List.range n =
      (List.range' 0 lo ++ List.range' lo (hi - lo)) ++ List.range' hi (n - hi) := by
    rw [List.range_eq_range', ← hb, ha]
  rw [hsp, List.filter_append, List.filter_append]
  have hl : (List.range' 0 lo).filter
      (fun b => (decide (lo ≤ b) && decide (b < hi)) && q b) = [] := by
    rw [List.filter_eq_nil_iff]
    intro a ha2
    rw [List.mem_range'_1] at ha2
    simp only [Bool.and_eq_true, decide_eq_true_eq, not_and]
    intro hcon
    omega
  have hr : (List.range' hi (n - hi)).filter
      (fun b => (decide (lo ≤ b) && decide (b < hi)) && q b) = [] := by
    rw [List.filter_eq_nil_iff]
    intro a ha2
    rw [List.mem_range'_1] at ha2
    simp only [Bool.and_eq_true, decide_eq_true_eq, not_and]
    intro hcon
    omega
  have hm : (List.range' lo (hi - lo)).filter
      (fun b => (decide (lo ≤ b) && decide (b < hi)) && q b) =
      (List.range' lo (hi - lo)).filter q := by
    apply List.filter_congr
    intro b hbm
    rw [List.mem_range'_1] at hbm
    have d1 : decide (lo ≤ b) = true := by simp; omega
    have d2 : decide (b < hi) = true := by simp; omega
    rw [d1, d2]
    simp
  rw [hl, hr, hm, List.nil_append, List.append_nil]

theorem filter_map_shift (Q : Nat → Bool) (a c b : Nat) :
    ((List.range' a c).filter (fun x => Q (b + x))).map (fun x => b + x) =
      (List.range' (b + a) c).filter Q := by
  rw [← map_range'_add a b c, List.filter_map]
  rfl

theorem pageSeq_wordRuns (t : Side) (rm : RegionManager) (i lo hi : Nat)
    (hlo : lo ≤ hi) (hhi : hi ≤ 64) :
    pageSeq ((IteratePages (Span t rm i &&& bitsIn lo hi)).map
      (fun r => (i * PAGES_PER_WORD + r.1, r.2))) =
    (List.range' (i * 64 + lo) (hi - lo)).filter (pageModified t rm) := by
  have hw : Span t rm i &&& bitsIn lo hi < 2 ^ 64 :=
    Nat.lt_of_le_of_lt Nat.and_le_right (bitsIn_lt lo hi hhi)
  rw [pageSeq_map_shift (i * PAGES_PER_WORD), IteratePages_eq_PageRuns _ hw,
    pageSeq_PageRuns]
  have hfe : (List.range 64).filter (fun b => (Span t rm i &&& bitsIn lo hi).testBit b) =
      (List.range 64).filter (fun b => (decide (lo ≤ b) && decide (b < hi)) &&
        (Span t rm i).testBit b) := by
    apply List.filter_congr
    intro b _
    rw [Nat.testBit_and, testBit_bitsIn]
    rw [Bool.and_comm]
  rw [hfe, filter_range_window _ lo hi 64 hlo hhi]
  have hPW : i * PAGES_PER_WORD = i * 64 := rfl
  rw [hPW, ← filter_map_shift (pageModified t rm) lo (hi - lo) (i * 64)]
  congr 1
  apply List.filter_congr
  intro b hbm
  rw [List.mem_range'_1] at hbm
  unfold pageModified
  have hdiv : (i * 64 + b) / PAGES_PER_WORD = i := by
    show (i * 64 + b) / 64 = i
    omega
  have hmod : (i * 64 + b) % PAGES_PER_WORD = b := by
    show (i * 64 + b) % 64 = b
    omega
  rw [hdiv, hmod]

theorem canonWords_cons (ps pe : Nat) (h : ps < pe) :
    canonWords ps pe =
      (ps / 64, bitsIn (ps % 64) (min (pe - ps / 64 * 64) 64)) ::
        canonWords ((ps / 64 + 1) * 64) pe := by
  unfold canonWords
  have h1 : (ps / 64 + 1) * 64 / 64 = ps / 64 + 1 := by omega
  have h2 : (ps / 64 + 1) * 64 % 64 = 0 := by omega
  rw [h1, h2]
  have hcount : (pe + 63) / 64 - ps / 64 = ((pe + 63) / 64 - (ps / 64 + 1)) + 1 := by
    omega
  rw [hcount, List.range_succ_eq_map, List.map_cons, List.map_map]
  congr 1
  apply List.map_congr_left
  intro k _
  simp only [Function.comp_apply, Nat.succ_eq_add_one, Prod.mk.injEq]
  refine ⟨by omega, ?_⟩
  have hif : (if k + 1 = 0 then ps % 64 else 0) = (if k = 0 then 0 else 0) := by
    simp
  rw [hif]
  have harg : pe - (ps / 64 + (k + 1)) * 64 = pe - (ps / 64 + 1 + k) * 64 := by
    omega
  rw [harg]

theorem canonWords_nil_of_aligned (w pe : Nat) (h : pe ≤ w * 64) :
    canonWords (w * 64) pe = [] := by
  unfold canonWords
  have hc : (pe + 63) / 64 - w * 64 / 64 = 0 := by omega
  rw [hc]
  rfl

theorem flat_pages (t : Side) (rm : RegionManager) : ∀ d ps pe, pe ≤ ps + d → ps < pe →
    pageSeq (flatRuns t rm (canonWords ps pe)) =
      (List.range' ps (pe - ps)).filter (pageModified t rm) := by
  intro d
  induction d with
  | zero => intro ps pe h1 h2; omega
  | succ n ih =>
    intro ps pe h1 h2
    rw [canonWords_cons ps pe h2]
    simp only [flatRuns]
    rw [pageSeq_append]
    have hlo : ps % 64 ≤ min (pe - ps / 64 * 64) 64 := by omega
    have hhi : min (pe - ps / 64 * 64) 64 ≤ 64 := by omega
    rw [pageSeq_wordRuns t rm (ps / 64) (ps % 64) _ hlo hhi]
    have hstart : ps / 64 * 64 + ps % 64 = ps := by omega
    have hlen : min (pe - ps / 64 * 64) 64 - ps % 64 = min pe ((ps / 64 + 1) * 64) - ps := by
      omega
    rw [hstart, hlen]
    by_cases hrest : (ps / 64 + 1) * 64 < pe
    · rw [ih ((ps / 64 + 1) * 64) pe (by omega) hrest]
      have hmin : min pe ((ps / 64 + 1) * 64) = (ps / 64 + 1) * 64 := by omega
      rw [hmin, ← List.filter_append]
      congr 1
      have happ := List.range'_append_1 ps ((ps / 64 + 1) * 64 - ps) (pe - (ps / 64 + 1) * 64)
      rw [show ps + ((ps / 64 + 1) * 64 - ps) = (ps / 64 + 1) * 64 from by omega,
        show pe - (ps / 64 + 1) * 64 + ((ps / 64 + 1) * 64 - ps) = pe - ps from by omega]
        at happ
      exact happ
    · rw [canonWords_nil_of_aligned (ps / 64 + 1) pe (by omega)]
      have hnil : flatRuns t rm [] = [] := rfl
      rw [hnil]
      have hps : pageSeq ([] : List (Nat × Nat)) = [] := rfl
      rw [hps, List.append_nil]
      have hmin : min pe ((ps / 64 + 1) * 64) = pe := by omega
      rw [hmin]

/-- The callbacks of ForEachModifiedRange, as the maximal runs of the
modified pages of the clipped query range. -/
theorem ForEachModifiedRange_calls_runs (t : Side) (c : Bool) (rm : RegionManager)
    (q s : Nat) :
    (ForEachModifiedRange t c rm q s).calls =
      (PageRuns (ModifiedPages t rm (sub64 q rm.cpu_addr) s)).map
        (fun r => (rm.cpu_addr + r.1 * BYTES_PER_PAGE, r.2 * BYTES_PER_PAGE)) := by
  obtain ⟨h1, _, _⟩ := ForEachModifiedRange_char t c rm q s
  rw [h1]
  congr 1
  have hpos : ∀ r ∈ flatRuns t rm (iterateWords (sub64 q rm.cpu_addr) s), 1 ≤ r.2 := by
    apply flatRuns_pos
    intro im him
    have := iterateWords_mem_bounds (o := sub64 q rm.cpu_addr) (s := s)
      (i := im.1) (m := im.2) (by rw [← Prod.mk.eta (p := im)] at him; exact him)
    exact this.2
  rw [mergeRuns_eq_PageRuns _ hpos]
  congr 1
  rw [iterateWords_eq_canon]
  unfold ModifiedPages
  rcases clippedRange_cases (sub64 q rm.cpu_addr) s with hc | ⟨hc1, hc2, _⟩
  · rw [hc]
    rfl
  · exact flat_pages t rm ((clippedRange (sub64 q rm.cpu_addr) s).2)
      (clippedRange (sub64 q rm.cpu_addr) s).1 (clippedRange (sub64 q rm.cpu_addr) s).2
      (by omega) hc1

/-! ## Zero-sized and clipped queries -/

theorem toS64_mod (x : Nat) : toS64 (x % 2 ^ 64) = toS64 x := by
  unfold toS64
  rw [Nat.mod_mod_of_dvd x dvd_rfl]

theorem iterateWords_size_zero (o : Nat) : iterateWords o 0 = [] := by
  unfold iterateWords
  rw [Nat.add_zero, toS64_mod]
  rw [if_pos (Or.inr (le_refl _))]

/-- C8: ranges partly outside the 4 MiB region are clipped — every word
index the iteration visits is inside the 16-word array and every mask is a
valid 64-bit word — and zero-length ranges are complete no-ops for
ChangeRegionState, ForEachModifiedRange and IsRegionModified: no state
change, no callbacks, no notifications. -/
theorem claim_C8 :
    (∀ offset size i m, (i, m) ∈ iterateWords offset size →
      i < NUM_REGION_WORDS ∧ m < 2 ^ 64) ∧
    (∀ t d rm a, ChangeRegionState t d rm a 0 = (rm, [])) ∧
    (∀ t c rm q, ForEachModifiedRange t c rm q 0 = ⟨rm, [], []⟩) ∧
    (∀ t rm o, IsRegionModified t rm o 0 = false) := by
  refine ⟨?_, ?_, ?_, ?_⟩
  · intro offset size i m h
    exact iterateWords_mem_bounds h
  · intro t d rm a
    unfold ChangeRegionState
    rw [iterateWords_size_zero]
    rfl
  · intro t c rm q
    unfold ForEachModifiedRange
    rw [iterateWords_size_zero]
    rfl
  · intro t rm o
    unfold IsRegionModified
    rw [iterateWords_size_zero]
    rfl

/-- Witness for C8 at a concrete clipped query: a range covering pages
1023..1026 of the region is clipped to the single word 15 with the top
mask bit. -/
theorem claim_C8_witness :
    ((15 : Nat), (9223372036854775808 : Nat)) ∈ iterateWords 4190208 16384 ∧
      15 < NUM_REGION_WORDS ∧ 9223372036854775808 < 2 ^ 64 :=
  ⟨by decide, claim_C8.1 4190208 16384 15 9223372036854775808 (by decide)⟩

theorem testBit_bound {x b : Nat} (hx : x < 2 ^ 64) (h : x.testBit b = true) : b < 64 := by
  by_contra hcon
  have hf : x.testBit b = false :=
    Nat.testBit_lt_two_pow
      (lt_of_lt_of_le hx (Nat.pow_le_pow_right (by omega) (by omega)))
  rw [hf] at h
  exact Bool.false_ne_true h

theorem clampNat_toS64_small (x : Nat) (h : x < 2 ^ 63) : clampNat (toS64 x) = x := by
  unfold clampNat toS64
  have h1 : x % 2 ^ 64 = x := Nat.mod_eq_of_lt (by omega)
  rw [h1, if_pos h]
  simp

/-- C9: a freshly constructed RegionManager reports every page CPU-modified
and no page GPU-modified: IsRegionModified is true for every non-empty
in-region CPU query and false for every GPU query. -/
theorem claim_C9 (addr off s : Nat) (h1 : 0 < s) (h2 : off + s ≤ HIGHER_PAGE_SIZE) :
    IsRegionModified Side.CPU (freshRegion addr) off s = true ∧
    ∀ o2 s2, IsRegionModified Side.GPU (freshRegion addr) o2 s2 = false := by
  have hHP : HIGHER_PAGE_SIZE = 4194304 := rfl
  rw [hHP] at h2
  constructor
  · unfold IsRegionModified
    rw [iterateWords_eq_canon]
    have hcr : clippedRange off s =
        (off / 4096, min ((off + s + 4096 - 1) / 4096) 1024) := by
      unfold clippedRange
      rw [toS64_mod, clampNat_toS64_small off (by omega),
        clampNat_toS64_small (off + s) (by omega)]
      rw [if_neg (by rw [hHP]; omega)]
      rfl
    rw [hcr]
    have hlt : off / 4096 < min ((off + s + 4096 - 1) / 4096) 1024 := by omega
    rw [canonWords_cons _ _ hlt]
    rw [List.any_cons]
    have hm0 : bitsIn (off / 4096 % 64)
        (min (min ((off + s + 4096 - 1) / 4096) 1024 - off / 4096 / 64 * 64) 64) ≠ 0 := by
      have hab : off / 4096 % 64 <
          min (min ((off + s + 4096 - 1) / 4096) 1024 - off / 4096 / 64 * 64) 64 := by
        omega
      have hpow : 2 ^ (off / 4096 % 64) <
          2 ^ (min (min ((off + s + 4096 - 1) / 4096) 1024 - off / 4096 / 64 * 64) 64) :=
        Nat.pow_lt_pow_right (by omega) hab
      unfold bitsIn
      omega
    have hm1 : bitsIn (off / 4096 % 64)
        (min (min ((off + s + 4096 - 1) / 4096) 1024 - off / 4096 / 64 * 64) 64) < 2 ^ 64 :=
      bitsIn_lt _ _ (by omega)
    have hword : Span Side.CPU (freshRegion addr) (off / 4096 / 64) = mask64 := rfl
    have hland : mask64 &&& bitsIn (off / 4096 % 64)
        (min (min ((off + s + 4096 - 1) / 4096) 1024 - off / 4096 / 64 * 64) 64) =
        bitsIn (off / 4096 % 64)
          (min (min ((off + s + 4096 - 1) / 4096) 1024 - off / 4096 / 64 * 64) 64) := by
      apply land_self_of_le
      intro b hb
      rw [testBit_mask64]
      have hb64 : b < 64 := testBit_bound hm1 hb
      simp [hb64]
    rw [Bool.or_eq_true]
    left
    rw [decide_eq_true_eq, hword, hland]
    exact hm0
  · intro o2 s2
    unfold IsRegionModified
    rw [List.any_eq_false]
    intro im _
    have hz : Span Side.GPU (freshRegion addr) im.1 = 0 := rfl
    rw [hz]
    simp [Nat.zero_and]

/-- Witness for C9 on the first page of a fresh region. -/
theorem claim_C9_witness :
    (0 < (4096 : Nat) ∧ 0 + 4096 ≤ HIGHER_PAGE_SIZE) ∧
      IsRegionModified Side.CPU (freshRegion 7) 0 4096 = true ∧
      IsRegionModified Side.GPU (freshRegion 7) 8192 4096 = false :=
  ⟨⟨by decide, by decide⟩,
    (claim_C9 7 0 4096 (by decide) (by decide)).1,
    (claim_C9 7 0 4096 (by decide) (by decide)).2 8192 4096⟩

/-- C1: ForEachModifiedRange invokes its callback exactly once per maximal
contiguous run of pages marked modified on the queried side within the
clipped query range, in ascending order, merging runs across 64-page word
boundaries: the callbacks are precisely the grouped maximal runs of the
ascending modified-page list, as byte ranges.  In particular, with modified
pages {2,3,4,7,8} a query over pages 0-9 yields exactly the callbacks
(page 2, 3 pages) and (page 7, 2 pages). -/
theorem claim_C1 :
    (∀ (t : Side) (clear : Bool) (rm : RegionManager) (q s : Nat),
      (ForEachModifiedRange t clear rm q s).calls =
        (PageRuns (ModifiedPages t rm (sub64 q rm.cpu_addr) s)).map
          (fun r => (rm.cpu_addr + r.1 * BYTES_PER_PAGE, r.2 * BYTES_PER_PAGE))) ∧
    (ForEachModifiedRange Side.CPU false exampleRegion 0 40960).calls =
      [(8192, 12288), (28672, 8192)] := by
  constructor
  · exact ForEachModifiedRange_calls_runs
  · decide

/-! ## ChangeRegionState notifications -/

theorem UpdateProtection_eq_NotifsOfWord (add ir : Bool) (ca i acc m : Nat)
    (hm : m < 2 ^ 64) :
    UpdateProtection add ir ca i acc m = NotifsOfWord add ir ca i acc m := by
  simp only [UpdateProtection, NotifsOfWord]
  have hchanged : (if add = true then acc else compl64 acc) &&& m =
      changedWord add acc m := rfl
  rw [hchanged]
  have hlt : changedWord add acc m < 2 ^ 64 :=
    Nat.lt_of_le_of_lt Nat.and_le_right hm
  rw [IteratePages_eq_PageRuns _ hlt]

theorem ChangeRegionStateStep_notifs (t : Side) (d : Bool) (acc : RegionManager × List Notif)
    (im : Nat × Nat) (hm : im.2 < 2 ^ 64) :
    (ChangeRegionStateStep t d acc im).2 = acc.2 ++ ChangeNotifsOfWord t d acc.1 im := by
  cases t
  · simp only [ChangeRegionStateStep, ChangeNotifsOfWord]
    rw [← UpdateProtection_eq_NotifsOfWord (!d) false acc.1.cpu_addr im.1
      (acc.1.write im.1) im.2 hm]
    by_cases hd : d <;> simp [hd]
  · simp only [ChangeRegionStateStep, ChangeNotifsOfWord]
    rw [← UpdateProtection_eq_NotifsOfWord true false acc.1.cpu_addr im.1
      (acc.1.write im.1) im.2 hm,
      ← UpdateProtection_eq_NotifsOfWord d true acc.1.cpu_addr im.1
      (acc.1.read im.1) im.2 hm]
    by_cases hd : d <;> simp [hd, List.append_assoc]

theorem ChangeRegionStateStep_st (t : Side) (d : Bool) (acc : RegionManager × List Notif)
    (im : Nat × Nat) :
    (ChangeRegionStateStep t d acc im).1.cpu_addr = acc.1.cpu_addr ∧
    ∀ j, j ≠ im.1 →
      (ChangeRegionStateStep t d acc im).1.cpu j = acc.1.cpu j ∧
      (ChangeRegionStateStep t d acc im).1.gpu j = acc.1.gpu j ∧
      (ChangeRegionStateStep t d acc im).1.write j = acc.1.write j ∧
      (ChangeRegionStateStep t d acc im).1.read j = acc.1.read j := by
  cases t <;> by_cases hd : d <;>
    exact ⟨by simp [ChangeRegionStateStep, hd],
      fun j hj => by simp [ChangeRegionStateStep, hd, upd, hj]⟩

theorem ChangeNotifsOfWord_congr (t : Side) (d : Bool) (st rm : RegionManager)
    (im : Nat × Nat) (hw : st.write im.1 = rm.write im.1)
    (hr : st.read im.1 = rm.read im.1) (ha : st.cpu_addr = rm.cpu_addr) :
    ChangeNotifsOfWord t d st im = ChangeNotifsOfWord t d rm im := by
  cases t <;> unfold ChangeNotifsOfWord
  · rw [hw, ha]
  · rw [hw, hr, ha]

theorem change_fold_notifs (t : Side) (d : Bool) (rm : RegionManager) :
    ∀ (L : List (Nat × Nat)) (acc : RegionManager × List Notif),
      L.Pairwise (fun a b => a.1 < b.1) →
      (∀ im ∈ L, acc.1.write im.1 = rm.write im.1 ∧ acc.1.read im.1 = rm.read im.1) →
      acc.1.cpu_addr = rm.cpu_addr →
      (∀ im ∈ L, im.2 < 2 ^ 64) →
      (L.foldl (ChangeRegionStateStep t d) acc).2 = acc.2 ++ ChangeNotifs t d rm L := by
  intro L
  induction L with
  | nil =>
    intro acc _ _ _ _
    simp [ChangeNotifs]
  | cons im L ih =>
    intro acc hpw hagree hca hmlt
    rw [List.pairwise_cons] at hpw
    obtain ⟨hhead, htail⟩ := hpw
    obtain ⟨ha1, ha2⟩ := hagree im (by simp)
    rw [List.foldl_cons]
    have hstep := ChangeRegionStateStep_notifs t d acc im (hmlt im (by simp))
    obtain ⟨hsa, hso⟩ := ChangeRegionStateStep_st t d acc im
    have hagree2 : ∀ jm ∈ L,
        (ChangeRegionStateStep t d acc im).1.write jm.1 = rm.write jm.1 ∧
        (ChangeRegionStateStep t d acc im).1.read jm.1 = rm.read jm.1 := by
      intro jm hjm
      have hne : jm.1 ≠ im.1 := by
        have := hhead jm hjm
        omega
      obtain ⟨_, _, hw2, hr2⟩ := hso jm.1 hne
      obtain ⟨hw3, hr3⟩ := hagree jm (List.mem_cons_of_mem im hjm)
      exact ⟨hw2.trans hw3, hr2.trans hr3⟩
    rw [ih (ChangeRegionStateStep t d acc im) htail hagree2 (hsa.trans hca)
      (fun jm hjm => hmlt jm (List.mem_cons_of_mem im hjm))]
    rw [hstep, ChangeNotifsOfWord_congr t d acc.1 rm im ha1 ha2 hca]
    show _ = acc.2 ++ (ChangeNotifsOfWord t d rm im ++ ChangeNotifs t d rm L)
    rw [List.append_assoc]

/-- C6 (amended): ChangeRegionState notifies UpdatePageWatchers exactly once
per maximal contiguous run of protection-changed pages WITHIN each 64-page
word; runs that cross a word boundary are split into one call per word, not
merged. -/
theorem claim_C6 (t : Side) (d : Bool) (rm : RegionManager) (a s : Nat) :
    (ChangeRegionState t d rm a s).2 =
      ChangeNotifs t d rm (iterateWords (sub64 a rm.cpu_addr) s) := by
  unfold ChangeRegionState
  rw [change_fold_notifs t d rm (iterateWords (sub64 a rm.cpu_addr) s) (rm, [])
    (iterateWords_pairwise _ _) (fun im _ => ⟨rfl, rfl⟩) rfl
    (fun im him => (iterateWords_mem_bounds
      (by rw [← Prod.mk.eta (p := im)] at him; exact him)).2)]
  rw [List.nil_append]

/-- Counterexample for C6 as stated: cleaning pages 60..70 of a fresh
region changes the protection requirement of all eleven pages — one maximal
contiguous run — yet the code emits two UpdatePageWatchers calls, one for
pages 60..63 of word 0 and one for pages 64..70 of word 1, not one call
covering the whole run. -/
theorem claim_C6_counterexample :
    (ChangeRegionState Side.CPU false (freshRegion 0) 245760 45056).2 =
      [⟨245760, 16384, 1, false⟩, ⟨262144, 28672, 1, false⟩] ∧
    (ChangeRegionState Side.CPU false (freshRegion 0) 245760 45056).2 ≠
      [⟨245760, 45056, 1, false⟩] := by
  constructor
  · decide
  · decide

/-! ## Idempotence of CPU dirty marking -/

theorem changeCPUtrue_fold (L : List (Nat × Nat)) :
    ∀ (acc : RegionManager × List Notif) (i : Nat),
      (L.foldl (ChangeRegionStateStep Side.CPU true) acc).1.cpu i =
        acc.1.cpu i ||| orMasks i L ∧
      (L.foldl (ChangeRegionStateStep Side.CPU true) acc).1.write i =
        acc.1.write i ||| orMasks i L ∧
      (L.foldl (ChangeRegionStateStep Side.CPU true) acc).1.gpu i = acc.1.gpu i ∧
      (L.foldl (ChangeRegionStateStep Side.CPU true) acc).1.read i = acc.1.read i ∧
      (L.foldl (ChangeRegionStateStep Side.CPU true) acc).1.cpu_addr = acc.1.cpu_addr := by
  induction L with
  | nil =>
    intro acc i
    simp [orMasks]
  | cons im L ih =>
    intro acc i
    rw [List.foldl_cons]
    obtain ⟨ih1, ih2, ih3, ih4, ih5⟩ := ih (ChangeRegionStateStep Side.CPU true acc im) i
    have hstep : ChangeRegionStateStep Side.CPU true acc im =
        ({ acc.1 with
            cpu := upd acc.1.cpu im.1 (acc.1.cpu im.1 ||| im.2)
            write := upd acc.1.write im.1 (acc.1.write im.1 ||| im.2) },
          acc.2 ++ UpdateProtection false false acc.1.cpu_addr im.1 (acc.1.write im.1) im.2) := by
      simp [ChangeRegionStateStep]
    rw [hstep] at ih1 ih2 ih3 ih4 ih5
    rw [hstep]
    simp only [orMasks]
    refine ⟨?_, ?_, ih3, ih4, ih5⟩
    · rw [ih1]
      by_cases hij : im.1 = i
      · rw [if_pos hij]
        show upd acc.1.cpu im.1 (acc.1.cpu im.1 ||| im.2) i ||| orMasks i L = _
        unfold upd
        rw [if_pos hij.symm, hij, Nat.or_assoc]
      · rw [if_neg hij]
        show upd acc.1.cpu im.1 (acc.1.cpu im.1 ||| im.2) i ||| orMasks i L = _
        unfold upd
        rw [if_neg (fun h => hij h.symm), Nat.zero_or]
    · rw [ih2]
      by_cases hij : im.1 = i
      · rw [if_pos hij]
        show upd acc.1.write im.1 (acc.1.write im.1 ||| im.2) i ||| orMasks i L = _
        unfold upd
        rw [if_pos hij.symm, hij, Nat.or_assoc]
      · rw [if_neg hij]
        show upd acc.1.write im.1 (acc.1.write im.1 ||| im.2) i ||| orMasks i L = _
        unfold upd
        rw [if_neg (fun h => hij h.symm), Nat.zero_or]

theorem orMasks_mem {L : List (Nat × Nat)} {i m b : Nat} (h : (i, m) ∈ L)
    (hb : m.testBit b = true) : (orMasks i L).testBit b = true := by
  induction L with
  | nil => simp at h
  | cons jm L ih =>
    rw [List.mem_cons] at h
    simp only [orMasks, Nat.testBit_lor]
    rcases h with h | h
    · rw [← h]
      simp [hb]
    · rw [ih h]
      simp

theorem lor_land_self (x m : Nat) : (x ||| m) &&& m = m := by
  apply land_self_of_le
  intro b hb
  rw [Nat.testBit_lor, hb]
  simp

theorem land_preserved_by_or (x y m : Nat) (h : x &&& m = m) : (x ||| y) &&& m = m := by
  apply land_self_of_le
  intro b hb
  have hx : x.testBit b = true := by
    have := congrArg (fun z => z.testBit b) h
    simp only [Nat.testBit_and] at this
    rw [hb] at this
    simp only [Bool.and_true] at this
    exact this
  rw [Nat.testBit_lor, hx]
  simp

theorem compl64_land_of_covered (x m : Nat) (hm : m < 2 ^ 64) (h : x &&& m = m) :
    compl64 x &&& m = 0 := by
  apply Nat.eq_of_testBit_eq
  intro b
  simp only [Nat.testBit_and, testBit_compl64, Nat.zero_testBit]
  cases hmb : m.testBit b
  · simp
  · have hb64 : b < 64 := testBit_bound hm hmb
    have hx : x.testBit b = true := by
      have := congrArg (fun z => z.testBit b) h
      simp only [Nat.testBit_and] at this
      rw [hmb] at this
      simp only [Bool.and_true] at this
      exact this
    simp [hx, hb64]

theorem changeCPUtrue_notifs_of_covered (L : List (Nat × Nat)) :
    ∀ (acc : RegionManager × List Notif),
      (∀ im ∈ L, acc.1.write im.1 &&& im.2 = im.2) →
      (∀ im ∈ L, im.2 < 2 ^ 64) →
      (L.foldl (ChangeRegionStateStep Side.CPU true) acc).2 = acc.2 := by
  induction L with
  | nil => intro acc _ _; rfl
  | cons im L ih =>
    intro acc hcov hlt
    rw [List.foldl_cons]
    have hchanged : compl64 (acc.1.write im.1) &&& im.2 = 0 :=
      compl64_land_of_covered _ _ (hlt im (by simp)) (hcov im (by simp))
    have hup : UpdateProtection false false acc.1.cpu_addr im.1 (acc.1.write im.1) im.2 = [] := by
      simp only [UpdateProtection]
      rw [show (if false = true then acc.1.write im.1 else compl64 (acc.1.write im.1)) =
        compl64 (acc.1.write im.1) from rfl]
      rw [hchanged]
      rfl
    have hstep : ChangeRegionStateStep Side.CPU true acc im =
        ({ acc.1 with
            cpu := upd acc.1.cpu im.1 (acc.1.cpu im.1 ||| im.2)
            write := upd acc.1.write im.1 (acc.1.write im.1 ||| im.2) },
          acc.2 ++ UpdateProtection false false acc.1.cpu_addr im.1 (acc.1.write im.1) im.2) := by
      simp [ChangeRegionStateStep]
    rw [hstep, hup, List.append_nil]
    apply ih
    · intro jm hjm
      show upd acc.1.write im.1 (acc.1.write im.1 ||| im.2) jm.1 &&& jm.2 = jm.2
      unfold upd
      by_cases hj : jm.1 = im.1
      · rw [if_pos hj]
        apply land_preserved_by_or
        have hc := hcov jm (List.mem_cons_of_mem im hjm)
        rw [hj] at hc
        exact hc
      · rw [if_neg hj]
        exact hcov jm (by simp [hjm])
    · intro jm hjm
      exact hlt jm (by simp [hjm])

/-- C7: marking a range CPU-dirty twice in a row leaves exactly the state
of marking it once — the bitsets are set-based — and the second call emits
no UpdatePageWatchers notifications at all. -/
theorem claim_C7 (rm : RegionManager) (a s : Nat) :
    (∀ i,
      (ChangeRegionState Side.CPU true (ChangeRegionState Side.CPU true rm a s).1 a s).1.cpu i =
        (ChangeRegionState Side.CPU true rm a s).1.cpu i ∧
      (ChangeRegionState Side.CPU true (ChangeRegionState Side.CPU true rm a s).1 a s).1.gpu i =
        (ChangeRegionState Side.CPU true rm a s).1.gpu i ∧
      (ChangeRegionState Side.CPU true (ChangeRegionState Side.CPU true rm a s).1 a s).1.write i =
        (ChangeRegionState Side.CPU true rm a s).1.write i ∧
      (ChangeRegionState Side.CPU true (ChangeRegionState Side.CPU true rm a s).1 a s).1.read i =
        (ChangeRegionState Side.CPU true rm a s).1.read i) ∧
    (ChangeRegionState Side.CPU true (ChangeRegionState Side.CPU true rm a s).1 a s).1.cpu_addr =
      (ChangeRegionState Side.CPU true rm a s).1.cpu_addr ∧
    (ChangeRegionState Side.CPU true (ChangeRegionState Side.CPU true rm a s).1 a s).2 = [] := by
  set rm1 := (ChangeRegionState Side.CPU true rm a s).1 with hrm1
  have hca : rm1.cpu_addr = rm.cpu_addr := by
    rw [hrm1]
    exact (changeCPUtrue_fold _ (rm, []) 0).2.2.2.2
  set L := iterateWords (sub64 a rm.cpu_addr) s with hL
  have hsame : iterateWords (sub64 a rm1.cpu_addr) s = L := by
    rw [hca]
  have h1 : ∀ i, rm1.cpu i = rm.cpu i ||| orMasks i L ∧
      rm1.write i = rm.write i ||| orMasks i L ∧ rm1.gpu i = rm.gpu i ∧
      rm1.read i = rm.read i := by
    intro i
    obtain ⟨a1, a2, a3, a4, _⟩ := changeCPUtrue_fold L (rm, []) i
    exact ⟨a1, a2, a3, a4⟩
  have h2 : ChangeRegionState Side.CPU true rm1 a s =
      L.foldl (ChangeRegionStateStep Side.CPU true) (rm1, []) := by
    unfold ChangeRegionState
    rw [hsame]
  refine ⟨?_, ?_, ?_⟩
  · intro i
    obtain ⟨b1, b2, b3, b4, _⟩ := changeCPUtrue_fold L (rm1, []) i
    rw [h2]
    obtain ⟨c1, c2, c3, c4⟩ := h1 i
    refine ⟨?_, b3, ?_, b4⟩
    · rw [b1, c1, Nat.or_assoc, Nat.or_self]
    · rw [b2, c2, Nat.or_assoc, Nat.or_self]
  · rw [h2]
    exact (changeCPUtrue_fold L (rm1, []) 0).2.2.2.2
  · rw [h2]
    apply changeCPUtrue_notifs_of_covered
    · intro im him
      obtain ⟨_, c2, _, _⟩ := h1 im.1
      show rm1.write im.1 &&& im.2 = im.2
      rw [c2]
      apply land_self_of_le
      intro b hb
      rw [Nat.testBit_lor,
        orMasks_mem (by rw [← Prod.mk.eta (p := im)] at him; exact him) hb]
      simp
    · intro im him
      exact (iterateWords_mem_bounds
        (by rw [← Prod.mk.eta (p := im)] at him; exact him)).2

/-! ## Reachable-state invariants -/

theorem foldl_preserve {α β : Type} (P : α → Prop) (f : α → β → α) :
    ∀ (l : List β) (a : α), (∀ x y, P x → P (f x y)) → P a → P (l.foldl f a) := by
  intro l
  induction l with
  | nil => intro a _ h; exact h
  | cons x xs ih => intro a hf h; exact ih (f a x) hf (hf a x h)

theorem P3_step (t : Side) (d : Bool) (acc : RegionManager × List Notif) (im : Nat × Nat)
    (h : ∀ i b, (acc.1.write i).testBit b = true → (acc.1.cpu i).testBit b = true) :
    ∀ i b, ((ChangeRegionStateStep t d acc im).1.write i).testBit b = true →
      ((ChangeRegionStateStep t d acc im).1.cpu i).testBit b = true := by
  intro i b
  by_cases hij : i = im.1
  case neg =>
    obtain ⟨_, ho⟩ := ChangeRegionStateStep_st t d acc im
    obtain ⟨hc, _, hw, _⟩ := ho i hij
    rw [hc, hw]
    exact h i b
  case pos =>
    cases t
    · by_cases hd : d
      · have hw : (ChangeRegionStateStep Side.CPU d acc im).1.write i =
            acc.1.write i ||| im.2 := by
          simp [ChangeRegionStateStep, hd, upd, hij]
        have hcp : (ChangeRegionStateStep Side.CPU d acc im).1.cpu i =
            acc.1.cpu i ||| im.2 := by
          simp [ChangeRegionStateStep, hd, upd, hij]
        rw [hw, hcp, Nat.testBit_lor, Nat.testBit_lor, Bool.or_eq_true, Bool.or_eq_true]
        rintro (hyp | hyp)
        · exact Or.inl (h _ _ hyp)
        · exact Or.inr hyp
      · have hw : (ChangeRegionStateStep Side.CPU d acc im).1.write i =
            acc.1.write i &&& compl64 im.2 := by
          simp [ChangeRegionStateStep, hd, upd, hij]
        have hcp : (ChangeRegionStateStep Side.CPU d acc im).1.cpu i =
            acc.1.cpu i &&& compl64 im.2 := by
          simp [ChangeRegionStateStep, hd, upd, hij]
        rw [hw, hcp, Nat.testBit_land, Nat.testBit_land, Bool.and_eq_true, Bool.and_eq_true]
        rintro ⟨hyp1, hyp2⟩
        exact ⟨h _ _ hyp1, hyp2⟩
    · have hw : (ChangeRegionStateStep Side.GPU d acc im).1.write i =
          acc.1.write i &&& compl64 im.2 := by
        by_cases hd : d <;> simp [ChangeRegionStateStep, hd, upd, hij]
      have hcp : (ChangeRegionStateStep Side.GPU d acc im).1.cpu i = acc.1.cpu i := by
        by_cases hd : d <;> simp [ChangeRegionStateStep, hd, upd, hij]
      rw [hw, hcp, Nat.testBit_land, Bool.and_eq_true]
      rintro ⟨hyp1, _⟩
      exact h _ _ hyp1

theorem P3_clear (t : Side) (c : Bool) (st : RegionManager) (im : Nat × Nat)
    (h : ∀ i b, (st.write i).testBit b = true → (st.cpu i).testBit b = true) :
    ∀ i b, ((femrStClear t c st im).write i).testBit b = true →
      ((femrStClear t c st im).cpu i).testBit b = true := by
  intro i b
  by_cases hij : i = im.1
  case neg =>
    obtain ⟨hc, _, hw, _⟩ := femrStClear_other t c st im i hij
    rw [hc, hw]
    exact h i b
  case pos =>
    by_cases hc : c
    · cases t
      · have hw : (femrStClear Side.CPU c st im).write i = st.write i &&& compl64 im.2 := by
          simp [femrStClear, hc, upd, hij]
        have hcp : (femrStClear Side.CPU c st im).cpu i = st.cpu i &&& compl64 im.2 := by
          simp [femrStClear, hc, upd, hij]
        rw [hw, hcp, Nat.testBit_land, Nat.testBit_land, Bool.and_eq_true, Bool.and_eq_true]
        rintro ⟨hyp1, hyp2⟩
        exact ⟨h _ _ hyp1, hyp2⟩
      · have hw : (femrStClear Side.GPU c st im).write i = st.write i := by
          simp [femrStClear, hc]
        have hcp : (femrStClear Side.GPU c st im).cpu i = st.cpu i := by
          simp [femrStClear, hc]
        rw [hw, hcp]
        exact h i b
    · have hst : femrStClear t c st im = st := by
        simp [femrStClear, hc]
      rw [hst]
      exact h i b

/-- C3 (amended): in every reachable RegionManager state, a page that is
not write-protected has its CPU-modified bit set (equivalently: a page with
CPU-modified clear is write-tracked).  The converse direction claimed by
the spec — CPU-modified implies not write-tracked — fails on reachable
states, see the counterexample. -/
theorem claim_C3 : ∀ rm, Reachable rm → ∀ i b,
    (rm.write i).testBit b = true → (rm.cpu i).testBit b = true := by
  intro rm h
  induction h with
  | fresh addr => intro i b hb; exact hb
  | change t d a s hr ih =>
    exact foldl_preserve
      (fun acc : RegionManager × List Notif =>
        ∀ i b, (acc.1.write i).testBit b = true → (acc.1.cpu i).testBit b = true)
      (ChangeRegionStateStep t d) _ _ (fun x y hx => P3_step t d x y hx) ih
  | femr t c q s hr ih =>
    rename_i rm0
    obtain ⟨_, _, hst⟩ := ForEachModifiedRange_char t c rm0 q s
    rw [hst]
    exact foldl_preserve
      (fun st : RegionManager =>
        ∀ i b, (st.write i).testBit b = true → (st.cpu i).testBit b = true)
      (femrStClear t c) _ _ (fun x y hx => P3_clear t c x y hx) ih

/-- Witness for C3 (amended) at the freshly constructed region. -/
theorem claim_C3_witness :
    Reachable (freshRegion 0) ∧
      (((freshRegion 0).write 0).testBit 0 = true →
        ((freshRegion 0).cpu 0).testBit 0 = true) :=
  ⟨Reachable.fresh 0, claim_C3 (freshRegion 0) (Reachable.fresh 0) 0 0⟩

/-- Counterexample for C3 as stated: marking a page GPU-dirty on a fresh
region write-protects it without clearing its CPU-modified bit, so the
reachable state has page 0 both CPU-modified and write-tracked. -/
theorem claim_C3_counterexample :
    Reachable (ChangeRegionState Side.GPU true (freshRegion 0) 0 4096).1 ∧
    ((ChangeRegionState Side.GPU true (freshRegion 0) 0 4096).1.cpu 0).testBit 0 = true ∧
    ((ChangeRegionState Side.GPU true (freshRegion 0) 0 4096).1.write 0).testBit 0 = false :=
  ⟨Reachable.change Side.GPU true 0 4096 (Reachable.fresh 0), by decide, by decide⟩

theorem P4_step (t : Side) (d : Bool) (acc : RegionManager × List Notif) (im : Nat × Nat)
    (h : ∀ i b, b < 64 → (acc.1.read i).testBit b = !(acc.1.gpu i).testBit b) :
    ∀ i b, b < 64 → ((ChangeRegionStateStep t d acc im).1.read i).testBit b =
      !((ChangeRegionStateStep t d acc im).1.gpu i).testBit b := by
  intro i b hb64
  by_cases hij : i = im.1
  case neg =>
    obtain ⟨_, ho⟩ := ChangeRegionStateStep_st t d acc im
    obtain ⟨_, hg, _, hr⟩ := ho i hij
    rw [hg, hr]
    exact h i b hb64
  case pos =>
    cases t
    · have hg : (ChangeRegionStateStep Side.CPU d acc im).1.gpu i = acc.1.gpu i := by
        by_cases hd : d <;> simp [ChangeRegionStateStep, hd]
      have hr : (ChangeRegionStateStep Side.CPU d acc im).1.read i = acc.1.read i := by
        by_cases hd : d <;> simp [ChangeRegionStateStep, hd]
      rw [hg, hr]
      exact h i b hb64
    · by_cases hd : d
      · have hg : (ChangeRegionStateStep Side.GPU d acc im).1.gpu i =
            acc.1.gpu i ||| im.2 := by
          simp [ChangeRegionStateStep, hd, upd, hij]
        have hr : (ChangeRegionStateStep Side.GPU d acc im).1.read i =
            acc.1.read i &&& compl64 im.2 := by
          simp [ChangeRegionStateStep, hd, upd, hij]
        rw [hg, hr, Nat.testBit_land, Nat.testBit_lor, testBit_compl64, h i b hb64]
        cases hgb : (acc.1.gpu i).testBit b <;> cases hmb : im.2.testBit b <;>
          simp [hb64, hgb, hmb]
      · have hg : (ChangeRegionStateStep Side.GPU d acc im).1.gpu i =
            acc.1.gpu i &&& compl64 im.2 := by
          simp [ChangeRegionStateStep, hd, upd, hij]
        have hr : (ChangeRegionStateStep Side.GPU d acc im).1.read i =
            acc.1.read i ||| im.2 := by
          simp [ChangeRegionStateStep, hd, upd, hij]
        rw [hg, hr, Nat.testBit_land, Nat.testBit_lor, testBit_compl64, h i b hb64]
        cases hgb : (acc.1.gpu i).testBit b <;> cases hmb : im.2.testBit b <;>
          simp [hb64, hgb, hmb]

theorem P4_clear (t : Side) (c : Bool) (st : RegionManager) (im : Nat × Nat)
    (h : ∀ i b, b < 64 → (st.read i).testBit b = !(st.gpu i).testBit b) :
    ∀ i b, b < 64 → ((femrStClear t c st im).read i).testBit b =
      !((femrStClear t c st im).gpu i).testBit b := by
  intro i b hb64
  by_cases hij : i = im.1
  case neg =>
    obtain ⟨_, hg, _, hr⟩ := femrStClear_other t c st im i hij
    rw [hg, hr]
    exact h i b hb64
  case pos =>
    by_cases hc : c
    · cases t
      · have hg : (femrStClear Side.CPU c st im).gpu i = st.gpu i := by
          simp [femrStClear, hc]
        have hr : (femrStClear Side.CPU c st im).read i = st.read i := by
          simp [femrStClear, hc]
        rw [hg, hr]
        exact h i b hb64
      · have hg : (femrStClear Side.GPU c st im).gpu i = st.gpu i &&& compl64 im.2 := by
          simp [femrStClear, hc, upd, hij]
        have hr : (femrStClear Side.GPU c st im).read i = st.read i ||| im.2 := by
          simp [femrStClear, hc, upd, hij]
        rw [hg, hr, Nat.testBit_land, Nat.testBit_lor, testBit_compl64, h i b hb64]
        cases hgb : (st.gpu i).testBit b <;> cases hmb : im.2.testBit b <;>
          simp [hb64, hgb, hmb]
    · have hst : femrStClear t c st im = st := by
        simp [femrStClear, hc]
      rw [hst]
      exact h i b hb64

/-- C4 (amended): in every reachable RegionManager state a page is
read-protected exactly when its GPU-modified bit is set: GPU-modified
implies read-tracking (CPU reads must wait for pending downloads) and
GPU-clean implies no read-tracking.  The additional claim that GPU-modified
pages are always write-tracked fails on reachable states, see the
counterexample. -/
theorem claim_C4 : ∀ rm, Reachable rm → ∀ i b, b < 64 →
    (rm.read i).testBit b = !(rm.gpu i).testBit b := by
  intro rm h
  induction h with
  | fresh addr =>
    intro i b hb64
    show mask64.testBit b = !(Nat.testBit 0 b)
    simp [testBit_mask64, hb64]
  | change t d a s hr ih =>
    exact foldl_preserve
      (fun acc : RegionManager × List Notif =>
        ∀ i b, b < 64 → (acc.1.read i).testBit b = !(acc.1.gpu i).testBit b)
      (ChangeRegionStateStep t d) _ _ (fun x y hx => P4_step t d x y hx) ih
  | femr t c q s hr ih =>
    rename_i rm0
    obtain ⟨_, _, hst⟩ := ForEachModifiedRange_char t c rm0 q s
    rw [hst]
    exact foldl_preserve
      (fun st : RegionManager =>
        ∀ i b, b < 64 → (st.read i).testBit b = !(st.gpu i).testBit b)
      (femrStClear t c) _ _ (fun x y hx => P4_clear t c x y hx) ih

/-- Witness for C4 (amended) at the freshly constructed region. -/
theorem claim_C4_witness :
    Reachable (freshRegion 0) ∧ (0 : Nat) < 64 ∧
      ((freshRegion 0).read 0).testBit 0 = !((freshRegion 0).gpu 0).testBit 0 :=
  ⟨Reachable.fresh 0, by decide, claim_C4 (freshRegion 0) (Reachable.fresh 0) 0 0 (by decide)⟩

/-- Counterexample for C4 as stated: after marking a page GPU-dirty and then
CPU-dirty (a CPU write fault on a GPU-modified page), the reachable state
has the GPU-modified bit set while the page is NOT write-tracked (its write
bit is set), contradicting the claim that GPU-modified pages are always
write-tracked. -/
theorem claim_C4_counterexample :
    Reachable (ChangeRegionState Side.CPU true
      (ChangeRegionState Side.GPU true (freshRegion 0) 0 4096).1 0 4096).1 ∧
    (((ChangeRegionState Side.CPU true
      (ChangeRegionState Side.GPU true (freshRegion 0) 0 4096).1 0 4096).1.gpu 0).testBit 0
        = true) ∧
    (((ChangeRegionState Side.CPU true
      (ChangeRegionState Side.GPU true (freshRegion 0) 0 4096).1 0 4096).1.write 0).testBit 0
        = true) :=
  ⟨Reachable.change Side.CPU true 0 4096
      (Reachable.change Side.GPU true 0 4096 (Reachable.fresh 0)),
    by decide, by decide⟩

/-! ## The clear pass of ForEachModifiedRange -/

theorem clearFold_out (t : Side) (c : Bool) : ∀ (L : List (Nat × Nat)) (st : RegionManager)
    (j : Nat), (∀ im ∈ L, im.1 ≠ j) →
    (L.foldl (femrStClear t c) st).cpu j = st.cpu j ∧
    (L.foldl (femrStClear t c) st).gpu j = st.gpu j ∧
    (L.foldl (femrStClear t c) st).write j = st.write j ∧
    (L.foldl (femrStClear t c) st).read j = st.read j := by
  intro L
  induction L with
  | nil => intro st j _; exact ⟨rfl, rfl, rfl, rfl⟩
  | cons im L ih =>
    intro st j hj
    rw [List.foldl_cons]
    obtain ⟨h1, h2, h3, h4⟩ := ih (femrStClear t c st im) j
      (fun jm hjm => hj jm (List.mem_cons_of_mem im hjm))
    obtain ⟨g1, g2, g3, g4⟩ := femrStClear_other t c st im j
      (Ne.symm (hj im (List.mem_cons_self im L)))
    exact ⟨h1.trans g1, h2.trans g2, h3.trans g3, h4.trans g4⟩

theorem femrStClear_at_congr (t : Side) (c : Bool) (st1 st : RegionManager)
    (im : Nat × Nat)
    (h1 : st1.cpu im.1 = st.cpu im.1) (h2 : st1.gpu im.1 = st.gpu im.1)
    (h3 : st1.write im.1 = st.write im.1) (h4 : st1.read im.1 = st.read im.1) :
    (femrStClear t c st1 im).cpu im.1 = (femrStClear t c st im).cpu im.1 ∧
    (femrStClear t c st1 im).gpu im.1 = (femrStClear t c st im).gpu im.1 ∧
    (femrStClear t c st1 im).write im.1 = (femrStClear t c st im).write im.1 ∧
    (femrStClear t c st1 im).read im.1 = (femrStClear t c st im).read im.1 := by
  by_cases hc : c <;> cases t <;> simp [femrStClear, hc, upd, h1, h2, h3, h4]

theorem clearFold_mem (t : Side) : ∀ (L : List (Nat × Nat)) (st : RegionManager)
    (im : Nat × Nat), L.Pairwise (fun a b => a.1 < b.1) → im ∈ L →
    (L.foldl (femrStClear t true) st).cpu im.1 = (femrStClear t true st im).cpu im.1 ∧
    (L.foldl (femrStClear t true) st).gpu im.1 = (femrStClear t true st im).gpu im.1 ∧
    (L.foldl (femrStClear t true) st).write im.1 = (femrStClear t true st im).write im.1 ∧
    (L.foldl (femrStClear t true) st).read im.1 = (femrStClear t true st im).read im.1 := by
  intro L
  induction L with
  | nil => intro st im _ him; simp at him
  | cons jm L ih =>
    intro st im hpw him
    rw [List.pairwise_cons] at hpw
    obtain ⟨hhead, htail⟩ := hpw
    rw [List.foldl_cons]
    rcases List.mem_cons.mp him with heq | hmem
    · subst heq
      exact clearFold_out t true L (femrStClear t true st im) im.1
        (fun jm hjm => by have := hhead jm hjm; omega)
    · have hne : im.1 ≠ jm.1 := by
        have := hhead im hmem
        omega
      obtain ⟨g1, g2, g3, g4⟩ := femrStClear_other t true st jm im.1 hne
      obtain ⟨f1, f2, f3, f4⟩ :=
        femrStClear_at_congr t true (femrStClear t true st jm) st im g1 g2 g3 g4
      obtain ⟨e1, e2, e3, e4⟩ := ih (femrStClear t true st jm) im htail hmem
      exact ⟨e1.trans f1, e2.trans f2, e3.trans f3, e4.trans f4⟩

/-- C5 (amended): ForEachModifiedRange with Clear set clears the modified
bits of the side over every word of the queried range — so IsRegionModified
over the same range afterwards returns false — and performs the matching
protection-bitset update: the cleared CPU pages become write-PROTECTED
(their bits leave the unprotected `write` set), while the cleared GPU pages
become un-read-protected (their bits enter the unprotected `read` set).
The spec has the CPU direction backwards ("un-write-protecting"); see the
counterexample. -/
theorem claim_C5 (t : Side) (rm : RegionManager) (q s : Nat) :
    IsRegionModified t (ForEachModifiedRange t true rm q s).st
      (sub64 q rm.cpu_addr) s = false ∧
    ∀ im ∈ iterateWords (sub64 q rm.cpu_addr) s,
      Span t (ForEachModifiedRange t true rm q s).st im.1 &&& im.2 = 0 ∧
      (t = Side.CPU →
        (ForEachModifiedRange t true rm q s).st.write im.1 &&& im.2 = 0) ∧
      (t = Side.GPU →
        (ForEachModifiedRange t true rm q s).st.read im.1 &&& im.2 = im.2) := by
  obtain ⟨_, _, hst⟩ := ForEachModifiedRange_char t true rm q s
  have hpw := iterateWords_pairwise (sub64 q rm.cpu_addr) s
  have key : ∀ im ∈ iterateWords (sub64 q rm.cpu_addr) s,
      Span t ((iterateWords (sub64 q rm.cpu_addr) s).foldl (femrStClear t true) rm)
          im.1 &&& im.2 = 0 ∧
      (t = Side.CPU →
        ((iterateWords (sub64 q rm.cpu_addr) s).foldl (femrStClear t true) rm).write
          im.1 &&& im.2 = 0) ∧
      (t = Side.GPU →
        ((iterateWords (sub64 q rm.cpu_addr) s).foldl (femrStClear t true) rm).read
          im.1 &&& im.2 = im.2) := by
    intro im him
    obtain ⟨_, hm2⟩ := iterateWords_mem_bounds him
    obtain ⟨e1, e2, e3, e4⟩ :=
      clearFold_mem t (iterateWords (sub64 q rm.cpu_addr) s) rm im hpw him
    cases t
    · have hcl : (femrStClear Side.CPU true rm im).cpu im.1 =
          rm.cpu im.1 &&& compl64 im.2 := by
        simp [femrStClear, upd]
      have hwl : (femrStClear Side.CPU true rm im).write im.1 =
          rm.write im.1 &&& compl64 im.2 := by
        simp [femrStClear, upd]
      refine ⟨?_, fun _ => ?_, fun h => Side.noConfusion h⟩
      · show ((iterateWords (sub64 q rm.cpu_addr) s).foldl
            (femrStClear Side.CPU true) rm).cpu im.1 &&& im.2 = 0
        rw [e1, hcl]
        exact land_compl64_land _ _ hm2
      · rw [e3, hwl]
        exact land_compl64_land _ _ hm2
    · have hgl : (femrStClear Side.GPU true rm im).gpu im.1 =
          rm.gpu im.1 &&& compl64 im.2 := by
        simp [femrStClear, upd]
      have hrl : (femrStClear Side.GPU true rm im).read im.1 =
          rm.read im.1 ||| im.2 := by
        simp [femrStClear, upd]
      refine ⟨?_, fun h => Side.noConfusion h, fun _ => ?_⟩
      · show ((iterateWords (sub64 q rm.cpu_addr) s).foldl
            (femrStClear Side.GPU true) rm).gpu im.1 &&& im.2 = 0
        rw [e2, hgl]
        exact land_compl64_land _ _ hm2
      · rw [e4, hrl]
        exact lor_land_self _ _
  constructor
  · rw [hst]
    unfold IsRegionModified
    rw [List.any_eq_false]
    intro im him
    simp [(key im him).1]
  · intro im him
    rw [hst]
    exact key im him

/-- Counterexample for C5 as stated: clearing the CPU-modified page 0 of a
fresh region (page CPU-modified and write-unprotected) write-PROTECTS it —
the page's bit leaves the unprotected `write` set and the tracker is told to
ADD write watchers (delta +1) — the opposite of the claimed
"un-write-protecting". -/
theorem claim_C5_counterexample :
    ((ForEachModifiedRange Side.CPU true (freshRegion 0) 0 4096).st.write 0).testBit 0
        = false ∧
    (ForEachModifiedRange Side.CPU true (freshRegion 0) 0 4096).notifs =
      [⟨0, 4096, 1, false⟩] := by
  constructor
  · decide
  · decide

/-! ## Streaming memcpy -/

theorem simdGo_spec : ∀ (fuel : Nat) (mem : Nat → Nat) (d s len : Nat),
    len ≤ fuel → (d + len ≤ s ∨ s + len ≤ d) → ∀ a,
    simdGo fuel mem d s len a = memcpyB mem d s len a := by
  intro fuel
  induction fuel with
  | zero =>
    intro mem d s len hlen _ a
    have h0 : len = 0 := Nat.le_zero.mp hlen
    subst h0
    show (if 16 ≤ 0 then mem else if (0 : Nat) ≠ 0 then memcpyB mem d s 0 else mem) a =
      memcpyB mem d s 0 a
    rw [if_neg (by omega), if_neg (by simp)]
    unfold memcpyB
    rw [if_neg (by omega)]
  | succ fuel ih =>
    intro mem d s len hlen hdisj a
    show (if 16 ≤ len then simdGo fuel (memcpyB mem d s 16) (d + 16) (s + 16) (len - 16)
      else if len ≠ 0 then memcpyB mem d s len else mem) a = memcpyB mem d s len a
    by_cases h16 : 16 ≤ len
    · rw [if_pos h16]
      rw [ih (memcpyB mem d s 16) (d + 16) (s + 16) (len - 16) (by omega) (by omega) a]
      unfold memcpyB
      split_ifs <;> first | rfl | (exfalso; omega) | (congr 1; omega)
    · rw [if_neg h16]
      by_cases h0 : len ≠ 0
      · rw [if_pos h0]
      · rw [if_neg h0]
        push_neg at h0
        unfold memcpyB
        rw [if_neg (by omega)]

/-- C2: for non-overlapping source and destination ranges, with any byte
alignments (co-aligned or not mod 16) and any length (including zero and
tails shorter than 16 bytes), util_streaming_load_memcpy writes into
`[dst, dst + len)` exactly the bytes a plain byte-by-byte copy would and
leaves every other byte of memory unchanged. -/
theorem claim_C2 (mem : Nat → Nat) (dst src len : Nat)
    (hdisj : dst + len ≤ src ∨ src + len ≤ dst) :
    ∀ a, util_streaming_load_memcpy mem dst src len a = memcpyB mem dst src len a := by
  intro a
  by_cases hco : dst % 16 ≠ src % 16
  · have hstep : util_streaming_load_memcpy mem dst src len = memcpyB mem dst src len := by
      unfold util_streaming_load_memcpy
      rw [if_pos hco]
    rw [hstep]
  · by_cases hal : dst % 16 ≠ 0
    · have hstep : util_streaming_load_memcpy mem dst src len =
          simdGo (len - min (16 - dst % 16) len)
            (memcpyB mem dst src (min (16 - dst % 16) len))
            (dst + (16 - dst % 16)) (src + (16 - dst % 16))
            (len - min (16 - dst % 16) len) := by
        unfold util_streaming_load_memcpy
        rw [if_neg hco, if_pos hal]
      rw [hstep]
      rw [simdGo_spec (len - min (16 - dst % 16) len)
        (memcpyB mem dst src (min (16 - dst % 16) len))
        (dst + (16 - dst % 16)) (src + (16 - dst % 16))
        (len - min (16 - dst % 16) len) (Nat.le_refl _) (by omega) a]
      unfold memcpyB
      split_ifs <;> first | rfl | (exfalso; omega) | (congr 1; omega)
    · have hstep : util_streaming_load_memcpy mem dst src len =
          simdGo len mem dst src len := by
        unfold util_streaming_load_memcpy
        rw [if_neg hco, if_neg hal]
      rw [hstep]
      exact simdGo_spec len mem dst src len (Nat.le_refl _) hdisj a

/-- Witness for C2: a co-aligned misaligned-head copy (dst % 16 = src % 16 = 4,
length 40: 12-byte head, one 16-byte streamed block, 12-byte tail) agrees
with the byte-by-byte copy at an address inside the streamed block. -/
theorem claim_C2_witness :
    (100 + 40 ≤ 212 ∨ 212 + 40 ≤ 100) ∧
      util_streaming_load_memcpy (fun a => a % 256) 100 212 40 120 =
        memcpyB (fun a => a % 256) 100 212 40 120 :=
  ⟨Or.inl (by decide),
    claim_C2 (fun a => a % 256) 100 212 40 (Or.inl (by decide)) 120⟩

/-! ## ForEachBufferInRange -/

theorem febLoop_spec (pt : Nat → Nat) (bufs : Nat → CachedBuffer) (page_end : Nat)
    (hcov : ∀ p, pt p ≠ 0 → (bufs (pt p)).cpu_addr ≤ p * CACHING_PAGESIZE ∧
      (p + 1) * CACHING_PAGESIZE ≤ (bufs (pt p)).cpu_addr + (bufs (pt p)).size_bytes) :
    ∀ (fuel page : Nat), page_end ≤ page + fuel →
      ∃ l, febLoop pt bufs page_end fuel page = some l ∧
        (∀ e ∈ l, e.1 ≠ 0 ∧ e.2 = bufs e.1 ∧
          ∃ p, page ≤ p ∧ p < page_end ∧ pt p = e.1) ∧
        (l.map Prod.fst).Nodup := by
  have hCP : CACHING_PAGESIZE = 4096 := rfl
  intro fuel
  induction fuel with
  | zero =>
    intro page hle
    refine ⟨[], ?_, by simp, by simp⟩
    unfold febLoop
    rw [if_neg (by omega)]
  | succ fuel ih =>
    intro page hle
    by_cases hpe : page < page_end
    case neg =>
      refine ⟨[], ?_, by simp, by simp⟩
      show (if page < page_end then _ else some []) = some []
      rw [if_neg hpe]
    case pos =>
      by_cases hid : pt page = 0
      · have hstep : febLoop pt bufs page_end (fuel + 1) page =
            febLoop pt bufs page_end fuel (page + 1) := by
          show (if page < page_end then
            if pt page = 0 then febLoop pt bufs page_end fuel (page + 1)
            else (febLoop pt bufs page_end fuel
              (DivCeil ((bufs (pt page)).cpu_addr + (bufs (pt page)).size_bytes)
                CACHING_PAGESIZE)).map (fun l => (pt page, bufs (pt page)) :: l)
            else some []) = _
          rw [if_pos hpe, if_pos hid]
        obtain ⟨l, hl, hfacts, hnd⟩ := ih (page + 1) (by omega)
        refine ⟨l, hstep.trans hl, ?_, hnd⟩
        intro e he
        obtain ⟨h1, h2, p, hp1, hp2, hp3⟩ := hfacts e he
        exact ⟨h1, h2, p, by omega, hp2, hp3⟩
      · obtain ⟨hc1, hc2⟩ := hcov page hid
        rw [hCP] at hc2
        have hnext : page + 1 ≤ DivCeil ((bufs (pt page)).cpu_addr +
            (bufs (pt page)).size_bytes) CACHING_PAGESIZE := by
          unfold DivCeil
          rw [hCP]
          omega
        obtain ⟨l, hl, hfacts, hnd⟩ := ih (DivCeil ((bufs (pt page)).cpu_addr +
          (bufs (pt page)).size_bytes) CACHING_PAGESIZE) (by omega)
        have hstep : febLoop pt bufs page_end (fuel + 1) page =
            some ((pt page, bufs (pt page)) :: l) := by
          show (if page < page_end then
            if pt page = 0 then febLoop pt bufs page_end fuel (page + 1)
            else (febLoop pt bufs page_end fuel
              (DivCeil ((bufs (pt page)).cpu_addr + (bufs (pt page)).size_bytes)
                CACHING_PAGESIZE)).map (fun l => (pt page, bufs (pt page)) :: l)
            else some []) = _
          rw [if_pos hpe, if_neg hid, hl]
          rfl
        refine ⟨(pt page, bufs (pt page)) :: l, hstep, ?_, ?_⟩
        · intro e he
          rcases List.mem_cons.mp he with he | he
          · rw [he]
            exact ⟨hid, rfl, page, Nat.le_refl _, hpe, rfl⟩
          · obtain ⟨h1, h2, p, hp1, hp2, hp3⟩ := hfacts e he
            exact ⟨h1, h2, p, by omega, hp2, hp3⟩
        · rw [List.map_cons, List.nodup_cons]
          refine ⟨?_, hnd⟩
          intro hmem
          rw [List.mem_map] at hmem
          obtain ⟨e, he, heq⟩ := hmem
          have hepg : e.1 = pt page := heq
          obtain ⟨_, _, p, hp1, hp2, hp3⟩ := hfacts e he
          obtain ⟨_, hc2p⟩ := hcov p (by rw [hp3, hepg]; exact hid)
          rw [hp3, hepg, hCP] at hc2p
          unfold DivCeil at hp1
          rw [hCP] at hp1
          omega

/-- C10: under the precondition that every non-null page-table entry names
a buffer whose guest range covers that entry's page, ForEachBufferInRange
terminates — the page cursor strictly increases every iteration, so fuel
equal to the final page bound suffices — returning the visited
`(buffer_id, buffer)` pairs, it never passes a null id, every pair comes
from a page-table entry inside the queried page range, and no buffer id is
passed to the callback twice. -/
theorem claim_C10 (pt : Nat → Nat) (bufs : Nat → CachedBuffer) (device_addr size : Nat)
    (hcov : ∀ p, pt p ≠ 0 → (bufs (pt p)).cpu_addr ≤ p * CACHING_PAGESIZE ∧
      (p + 1) * CACHING_PAGESIZE ≤ (bufs (pt p)).cpu_addr + (bufs (pt p)).size_bytes) :
    ∃ l, ForEachBufferInRange pt bufs device_addr size = some l ∧
      (l.map Prod.fst).Nodup ∧
      ∀ e ∈ l, e.1 ≠ 0 ∧ e.2 = bufs e.1 ∧
        ∃ p, device_addr / CACHING_PAGESIZE ≤ p ∧
          p < DivCeil (device_addr + size) CACHING_PAGESIZE ∧ pt p = e.1 := by
  obtain ⟨l, hl, hfacts, hnd⟩ := febLoop_spec pt bufs
    (DivCeil (device_addr + size) CACHING_PAGESIZE) hcov
    (DivCeil (device_addr + size) CACHING_PAGESIZE)
    (device_addr / CACHING_PAGESIZE) (Nat.le_add_left _ _)
  exact ⟨l, hl, hnd, hfacts⟩

/-- Witness for C10 at an empty page table, whose coverage precondition
holds vacuously. -/
theorem claim_C10_witness :
    ∃ l, ForEachBufferInRange (fun _ => 0) (fun _ => ⟨0, 0⟩) 0 8192 = some l ∧
      (l.map Prod.fst).Nodup ∧
      ∀ e ∈ l, e.1 ≠ 0 ∧ e.2 = (fun _ : Nat => (⟨0, 0⟩ : CachedBuffer)) e.1 ∧
        ∃ p, 0 / CACHING_PAGESIZE ≤ p ∧
          p < DivCeil (0 + 8192) CACHING_PAGESIZE ∧ (fun _ : Nat => 0) p = e.1 :=
  claim_C10 (fun _ => 0) (fun _ => ⟨0, 0⟩) 0 8192 (fun _ hp => absurd rfl hp)

end ShadPS4
